import Mathlib

/-!
Verification of the total-ordering engine specification of `dexon-consensus`
against the repository's sources.

The repository ships the full unit-test surface of the total ordering engine
(`core/total-ordering_test.go`) and the node-set selection code
(`core/types/nodeset.go`).  The engine implementation itself
(`core/total-ordering.go`) is not among the sources, so the engine is modelled
here from the specification, with every modelled function validated against the
concrete input/output pairs pinned by the unit tests (`TestBlockRelation`,
`TestCreateAckingHeightVectorFromHeightVector`,
`TestCreateAckingNodeSetFromHeightVector`, `TestGrade`, `TestCycleDetection`,
`TestEarlyDeliver`, `TestBasicCaseForK2`, `TestBasicCaseForK0`).
`GetSubSet` is embedded directly from `nodeset.go`.
-/

namespace DexonCore

/-- Block hashes are opaque 32-byte identifiers compared bit-exactly; we model
them as natural numbers (hash equality and the ascending hash order are what
the algorithm consumes). -/
abbrev Hash := Nat

/-- `types.Position`: chain id, height on the chain, and round. -/
structure Position where
  chainID : Nat
  height : Nat
  round : Nat := 0
deriving DecidableEq, Repr

/-- `types.Block`: the fields read by the total-ordering engine. -/
structure Block where
  hash : Hash
  parentHash : Hash := 0
  proposerID : Nat := 0
  position : Position
  acks : List Hash
deriving DecidableEq, Repr

/-- The sentinel `infinity` used in height vectors: `u64` max, per the spec
("use `u64::MAX`"). -/
def infinity : Nat := 2 ^ 64 - 1

/-- `totalOrderingHeightRecord`: per-(candidate, chain) summary — the lowest
height on the chain acking the candidate and the count of consecutive acking
heights. -/
structure totalOrderingHeightRecord where
  minHeight : Nat
  count : Nat
deriving DecidableEq, Repr

/-- `totalOrderingCandidateInfo`: per-candidate acking status across chains and
the cached height vector (the win-record cache is modelled separately and
recomputed instead of being cached). -/
structure totalOrderingCandidateInfo where
  hash : Hash := 0
  ackedStatus : List totalOrderingHeightRecord
  cachedHeightVector : List Nat := []
deriving DecidableEq, Repr

/-- Modelled from the spec: one entry of `updateAckingHeightVector`
(`core/total-ordering.go` is absent from the sources).  The spec's rule is:
`INFINITY` when the local count is zero, `INFINITY` when the local minimum
height has moved past the global minimum by more than the window, and the local
minimum otherwise.  The exact window threshold is fixed by the pinned test
`TestCreateAckingHeightVectorFromHeightVector`: with global record `(0, 5)` and
local record `(3, 1)` the entry is `INFINITY` for `k = 2` but equals `3` for
`k = 3`, so the entry is infinite exactly when
`global.minHeight + k < local.minHeight`. -/
def ackingHeightVectorEntry (gRec lRec : totalOrderingHeightRecord) (k : Nat) : Nat :=
  if lRec.count = 0 then infinity
  else if gRec.minHeight + k < lRec.minHeight then infinity
  else lRec.minHeight

/-- Modelled from the spec: `updateAckingHeightVector` recomputes the cached
height-vector entries of the dirty chains against the global vector; entries of
chains outside `dirtyChainIDs` keep their previous cached value.  The object
cache argument of the Go function is an allocation pool and is not modelled. -/
def updateAckingHeightVector (v global : totalOrderingCandidateInfo) (k : Nat)
    (dirtyChainIDs : List Nat) : totalOrderingCandidateInfo :=
  { v with cachedHeightVector :=
      (List.range v.ackedStatus.length).map fun i =>
        if i ∈ dirtyChainIDs then
          ackingHeightVectorEntry (global.ackedStatus.getD i ⟨0, 0⟩)
            (v.ackedStatus.getD i ⟨0, 0⟩) k
        else v.cachedHeightVector.getD i 0 }

/-- Modelled from the spec: `getAckingNodeSetLength` counts the chains that have
acked the candidate deeply enough (`core/total-ordering.go` is absent from the
sources).  A chain `i` counts when both the global and the local record have a
nonzero count and the local coverage `minHeight + count - 1` reaches
`global.minHeight + k`; this is the unique reading matching the pinned test
`TestCreateAckingNodeSetFromHeightVector` (local `(1, 2)` against global
`(0, 5)` counts for `k = 1` and `k = 2` but not `k = 3`). -/
def getAckingNodeSetLength (v global : totalOrderingCandidateInfo) (k : Nat)
    (numChains : Nat) : Nat :=
  (List.range numChains).countP fun i =>
    let gRec := global.ackedStatus.getD i ⟨0, 0⟩
    let lRec := v.ackedStatus.getD i ⟨0, 0⟩
    decide (gRec.count ≠ 0 ∧ lRec.count ≠ 0 ∧
      gRec.minHeight + k ≤ lRec.minHeight + lRec.count - 1)

/-- `totalOrderingWinRecord`: one bit per chain recording whether this candidate
beats the other candidate on that chain, plus a running count (the count is
derived here). -/
structure totalOrderingWinRecord where
  wins : List Bool
deriving DecidableEq, Repr

/-- The number of won chains recorded in a win record. -/
def totalOrderingWinRecord.count (w : totalOrderingWinRecord) : Nat :=
  w.wins.countP id

/-- Modelled from the spec: `updateWinRecord` records, for each chain, whether
candidate `v`'s height-vector entry is strictly less than `other`'s (strictness
is pinned by `TestGrade`: vectors `[1,1,1,1,inf]` against `[1,inf,inf,inf,inf]`
produce exactly 3 wins).  The dirty-chain list and the object cache of the Go
function are an incremental-recomputation optimization and are not modelled:
the whole record is recomputed. -/
def updateWinRecord (v other : totalOrderingCandidateInfo) (numChains : Nat) :
    totalOrderingWinRecord :=
  ⟨(List.range numChains).map fun i =>
      decide (v.cachedHeightVector.getD i 0 < other.cachedHeightVector.getD i 0)⟩

/-- Modelled from the spec: the three-valued `grade` of a win record
(`core/total-ordering.go` is absent from the sources).  The middle case is
fixed by the pinned test `TestGrade` (with 5 chains, `phi = 3` and ack-set size
4, a zero win count grades 0, a win count of 2 grades -1, and a win count of 3
grades 1): grade is `1` when the count reaches `phi`, `0` when the count is
below `phi - (numChains - globalAnsLength)`, and `-1` otherwise. -/
def totalOrderingWinRecord.grade (w : totalOrderingWinRecord) (numChains phi : Nat)
    (globalAnsLength : Nat) : Int :=
  if phi ≤ w.count then 1
  else if w.count < phi - (numChains - globalAnsLength) then 0
  else -1

/-! Validation of the modelled functions against every observation pinned by
`TestCreateAckingHeightVectorFromHeightVector`,
`TestCreateAckingNodeSetFromHeightVector` and `TestGrade`. -/

/-- The global acking status used throughout the height-vector unit tests. -/
def testGlobalInfo : totalOrderingCandidateInfo :=
  ⟨0, [⟨0, 5⟩, ⟨0, 5⟩, ⟨0, 5⟩, ⟨0, 5⟩, ⟨0, 0⟩], []⟩

/-- First candidate of `TestCreateAckingHeightVectorFromHeightVector`. -/
def testCandidateCount2 : totalOrderingCandidateInfo :=
  ⟨0, [⟨0, 2⟩, ⟨0, 0⟩, ⟨0, 0⟩, ⟨0, 0⟩, ⟨0, 0⟩], []⟩

/-- Second candidate of `TestCreateAckingHeightVectorFromHeightVector`. -/
def testCandidateMin3 : totalOrderingCandidateInfo :=
  ⟨0, [⟨3, 1⟩, ⟨0, 0⟩, ⟨0, 0⟩, ⟨0, 0⟩, ⟨0, 0⟩], []⟩

example :
    let hv := (updateAckingHeightVector testCandidateCount2 testGlobalInfo 0
      [0, 1, 2, 3, 4]).cachedHeightVector
    hv.getD 0 0 = 0 ∧ hv.getD 1 0 = infinity ∧ hv.getD 2 0 = infinity ∧
      hv.getD 3 0 = infinity := by decide

example :
    (updateAckingHeightVector testCandidateMin3 testGlobalInfo 2
      [0, 1, 2, 3, 4]).cachedHeightVector.getD 0 0 = infinity := by decide

example :
    (updateAckingHeightVector testCandidateMin3 testGlobalInfo 3
      [0, 1, 2, 3, 4]).cachedHeightVector.getD 0 0 = 3 := by decide

/-- The local candidate of `TestCreateAckingNodeSetFromHeightVector`. -/
def testLocalInfo : totalOrderingCandidateInfo :=
  ⟨0, [⟨1, 2⟩, ⟨0, 0⟩, ⟨0, 0⟩, ⟨0, 0⟩, ⟨0, 0⟩], []⟩

example : getAckingNodeSetLength testLocalInfo testGlobalInfo 1 5 = 1 := by decide
example : getAckingNodeSetLength testLocalInfo testGlobalInfo 2 5 = 1 := by decide
example : getAckingNodeSetLength testLocalInfo testGlobalInfo 3 5 = 0 := by decide

/-- Height vector of `candidate1` in `TestGrade`. -/
def testHV1 : totalOrderingCandidateInfo :=
  ⟨0, [], [1, infinity, infinity, infinity, infinity]⟩

/-- Height vector of `candidate2` in `TestGrade`. -/
def testHV2 : totalOrderingCandidateInfo :=
  ⟨0, [], [1, 1, 1, 1, infinity]⟩

/-- Height vector of `candidate3` in `TestGrade`. -/
def testHV3 : totalOrderingCandidateInfo :=
  ⟨0, [], [1, 1, infinity, infinity, infinity]⟩

example : (updateWinRecord testHV2 testHV1 5).grade 5 3 4 = 1 := by decide
example : (updateWinRecord testHV1 testHV2 5).grade 5 3 4 = 0 := by decide
example : (updateWinRecord testHV2 testHV3 5).grade 5 3 4 = -1 := by decide
example : (updateWinRecord testHV3 testHV2 5).grade 5 3 4 = 0 := by decide

/-- Reading an element of a mapped range list. -/
theorem getD_map_range {α : Type} (f : Nat → α) {n i : Nat} (d : α) (h : i < n) :
    ((List.range n).map f).getD i d = f i := by
  rw [List.getD_eq_getElem?_getD, List.getElem?_map, List.getElem?_range h]
  rfl

/-- C7 (amended): for every candidate, chain index `i` in the dirty list and
parameter `k`, `updateAckingHeightVector` sets the cached height-vector entry
for `i` to `INFINITY` when the candidate's `ackedStatus[i].count` is 0, to
`INFINITY` when `ackedStatus[i].minHeight` exceeds the global `minHeight` for
chain `i` plus `k` (not `k - 1` as the claim states), and to
`ackedStatus[i].minHeight` otherwise. -/
theorem C7_theorem (v global : totalOrderingCandidateInfo) (k : Nat)
    (dirty : List Nat) (i : Nat) (hi : i < v.ackedStatus.length) (hd : i ∈ dirty) :
    ((v.ackedStatus.getD i ⟨0, 0⟩).count = 0 →
      (updateAckingHeightVector v global k dirty).cachedHeightVector.getD i 0 = infinity) ∧
    ((v.ackedStatus.getD i ⟨0, 0⟩).count ≠ 0 →
      (global.ackedStatus.getD i ⟨0, 0⟩).minHeight + k < (v.ackedStatus.getD i ⟨0, 0⟩).minHeight →
      (updateAckingHeightVector v global k dirty).cachedHeightVector.getD i 0 = infinity) ∧
    ((v.ackedStatus.getD i ⟨0, 0⟩).count ≠ 0 →
      (v.ackedStatus.getD i ⟨0, 0⟩).minHeight ≤ (global.ackedStatus.getD i ⟨0, 0⟩).minHeight + k →
      (updateAckingHeightVector v global k dirty).cachedHeightVector.getD i 0 =
        (v.ackedStatus.getD i ⟨0, 0⟩).minHeight) := by
  have key : (updateAckingHeightVector v global k dirty).cachedHeightVector.getD i 0 =
      ackingHeightVectorEntry (global.ackedStatus.getD i ⟨0, 0⟩)
        (v.ackedStatus.getD i ⟨0, 0⟩) k := by
    unfold updateAckingHeightVector
    rw [getD_map_range _ 0 hi]
    simp [hd]
  refine ⟨fun h0 => ?_, fun h0 hlt => ?_, fun h0 hle => ?_⟩ <;>
    rw [key] <;> unfold ackingHeightVectorEntry
  · rw [if_pos h0]
  · rw [if_neg h0, if_pos hlt]
  · rw [if_neg h0, if_neg (by omega)]

/-- Witness for `C7_theorem` at the data of
`TestCreateAckingHeightVectorFromHeightVector` with `k = 3`. -/
theorem C7_witness :
    (0 < testCandidateMin3.ackedStatus.length ∧ (0 : Nat) ∈ [0, 1, 2, 3, 4]) ∧
    (((testCandidateMin3.ackedStatus.getD 0 ⟨0, 0⟩).count = 0 →
      (updateAckingHeightVector testCandidateMin3 testGlobalInfo 3
        [0, 1, 2, 3, 4]).cachedHeightVector.getD 0 0 = infinity) ∧
    ((testCandidateMin3.ackedStatus.getD 0 ⟨0, 0⟩).count ≠ 0 →
      (testGlobalInfo.ackedStatus.getD 0 ⟨0, 0⟩).minHeight + 3 <
        (testCandidateMin3.ackedStatus.getD 0 ⟨0, 0⟩).minHeight →
      (updateAckingHeightVector testCandidateMin3 testGlobalInfo 3
        [0, 1, 2, 3, 4]).cachedHeightVector.getD 0 0 = infinity) ∧
    ((testCandidateMin3.ackedStatus.getD 0 ⟨0, 0⟩).count ≠ 0 →
      (testCandidateMin3.ackedStatus.getD 0 ⟨0, 0⟩).minHeight ≤
        (testGlobalInfo.ackedStatus.getD 0 ⟨0, 0⟩).minHeight + 3 →
      (updateAckingHeightVector testCandidateMin3 testGlobalInfo 3
        [0, 1, 2, 3, 4]).cachedHeightVector.getD 0 0 =
        (testCandidateMin3.ackedStatus.getD 0 ⟨0, 0⟩).minHeight)) :=
  ⟨⟨by decide, by decide⟩,
    C7_theorem testCandidateMin3 testGlobalInfo 3 [0, 1, 2, 3, 4] 0
      (by decide) (by decide)⟩

/-- C7 counterexample: at the inputs pinned by
`TestCreateAckingHeightVectorFromHeightVector` (global record `(0, 5)`, local
record `(3, 1)`, `k = 3`), the local `minHeight` exceeds the global `minHeight`
plus `k - 1` (`3 > 0 + 3 - 1`), yet the cached entry is `3` and not `INFINITY`
as the claim demands. -/
theorem C7_counterexample :
    (0 : Nat) + 3 - 1 < 3 ∧
    (updateAckingHeightVector testCandidateMin3 testGlobalInfo 3
      [0, 1, 2, 3, 4]).cachedHeightVector.getD 0 0 = 3 ∧
    (3 : Nat) ≠ infinity := by decide

/-- C8 (amended): the grade of the win record of `ca` against `cb` is `1` when
the win count (chains where `ca`'s height-vector entry is strictly less than
`cb`'s) is at least `phi`, `0` when the win count is strictly less than
`phi - (numChains - ackSetSize)`, and `-1` in all other cases.  (The claim
instead places `-1` whenever the count is below `ackSetSize - phi`.) -/
theorem C8_theorem (ca cb : totalOrderingCandidateInfo) (n phi ansLength : Nat) :
    (updateWinRecord ca cb n).grade n phi ansLength =
      if phi ≤ ((List.range n).countP fun i =>
          decide (ca.cachedHeightVector.getD i 0 < cb.cachedHeightVector.getD i 0)) then 1
      else if ((List.range n).countP fun i =>
          decide (ca.cachedHeightVector.getD i 0 < cb.cachedHeightVector.getD i 0)) <
          phi - (n - ansLength) then 0
      else -1 := by
  have hc : (updateWinRecord ca cb n).count =
      (List.range n).countP fun i =>
        decide (ca.cachedHeightVector.getD i 0 < cb.cachedHeightVector.getD i 0) := by
    simp [updateWinRecord, totalOrderingWinRecord.count, List.countP_map, Function.comp]
  simp only [totalOrderingWinRecord.grade, hc]

/-- C8 counterexample: at the data of `TestGrade` (`candidate1`'s height vector
`[1, inf, inf, inf, inf]` against `candidate2`'s `[1, 1, 1, 1, inf]`, 5 chains,
`phi = 3`, ack-set size 4), the win count is 0, which is strictly less than
`ackSetSize - phi = 1`, so the claim demands grade `-1`; the pinned grade is
`0`. -/
theorem C8_counterexample :
    (updateWinRecord testHV1 testHV2 5).count < 4 - 3 ∧
    (updateWinRecord testHV1 testHV2 5).grade 5 3 4 = 0 ∧ (0 : Int) ≠ -1 := by decide

/-! ### The total-ordering engine, modelled from the spec

`core/total-ordering.go` is absent from the sources; the engine below is
modelled from the specification (§3 "Ordering engine state", §4.6 "Ordering
engine") and validated against every handcrafted scenario of
`core/total-ordering_test.go`.  Round configurations, flushing at round
boundaries and the object cache are not modelled: every scenario claim below
concerns a single round.  Derived candidate state (`ackedStatus`, height
vectors, win records) is recomputed from the pending set and the `acked`
relation instead of being incrementally cached; the spec presents the caches
as incremental maintenance of exactly these derived values. -/

/-- Association-map read of the `acked` relation: the hashes of blocks
currently known to transitively ack `h`. -/
def ackedGet (m : List (Hash × List Hash)) (h : Hash) : List Hash :=
  ((m.find? fun e => e.1 == h).map Prod.snd).getD []

/-- Insert `x` into the acked set of `a`, creating the entry when `a` has none
and skipping duplicates. -/
def ackedInsert (m : List (Hash × List Hash)) (a x : Hash) : List (Hash × List Hash) :=
  match m with
  | [] => [(a, [x])]
  | e :: rest =>
    if e.1 = a then (if x ∈ e.2 then e else (e.1, e.2 ++ [x])) :: rest
    else e :: ackedInsert rest a x

/-- Filtering with a pointwise-stronger predicate cannot make the list longer. -/
theorem length_filter_le_filter {α : Type} (p q : α → Bool) (l : List α)
    (himp : ∀ a, p a = true → q a = true) :
    (l.filter p).length ≤ (l.filter q).length :=
  (List.monotone_filter_right l himp).length_le

/-- Filtering with a pointwise-stronger predicate that loses a member of the
list makes it strictly shorter. -/
theorem length_filter_lt_filter {α : Type} (p q : α → Bool) (l : List α)
    (himp : ∀ a, p a = true → q a = true) (b : α) (hb : b ∈ l)
    (hq : q b = true) (hp : p b = false) :
    (l.filter p).length < (l.filter q).length := by
  induction l with
  | nil => cases hb
  | cons x xs ih =>
    rcases List.mem_cons.1 hb with rfl | hb
    · rw [List.filter_cons, List.filter_cons, hp, hq]
      exact Nat.lt_succ_of_le (length_filter_le_filter p q xs himp)
    · rw [List.filter_cons, List.filter_cons]
      cases hpx : p x with
      | false =>
        cases hqx : q x with
        | false => simpa using ih hb
        | true => exact Nat.lt_succ_of_lt (by simpa using ih hb)
      | true =>
        rw [himp x hpx]
        simpa using Nat.succ_lt_succ (ih hb)

/-- Modelled from the spec (§4.6 step 1, §9 design notes): the ancestors
reached from the arriving block's `acks` — the direct acks together with every
hash whose `acked` entry already contains one of the direct acks.  The spec
prescribes recursing "only via the already-maintained `acked` map (never
re-walking `acks` fields of ancestors), which is inherently acyclic because
`acked` is transitively closed"; maintained as such a flat index, the reached
set needs no recursion at all, which is why cyclic or self-referential ack
graphs cannot cause non-termination. -/
def reachedFrom (acked : List (Hash × List Hash)) (acks : List Hash) : List Hash :=
  acks ++ (acked.filter fun e => e.2.any fun x => decide (x ∈ acks)).map Prod.fst

/-- The delivery modes of `processBlock` (flush never occurs in the modelled
single-round engine). -/
inductive TotalOrderingMode where
  | error
  | normal
  | early
  | flush
deriving DecidableEq, Repr

/-- Modelled from the spec (§3 "Ordering engine state"): the single-round
state of the ordering engine.  `pendings` keeps the received undelivered
blocks in arrival order, `acked` maps a hash to the pending blocks whose
ack-closure contains it, and `candidates` holds at most one candidate hash per
chain.  The global vector and all candidate caches are derived from
`pendings` and `acked` below. -/
structure totalOrdering where
  k : Nat
  phi : Nat
  numChains : Nat
  pendings : List Block
  acked : List (Hash × List Hash)
  candidates : List (Option Hash)
deriving DecidableEq, Repr

/-- A fresh engine for one round of configuration `(k, phi, numChains)`. -/
def newTotalOrdering (k phi numChains : Nat) : totalOrdering :=
  ⟨k, phi, numChains, [], [], List.replicate numChains none⟩

/-- The pending blocks of chain `i`, in arrival order (equal to ascending
height order for DAG-respecting inputs). -/
def totalOrdering.chainBlocks (s : totalOrdering) (i : Nat) : List Block :=
  s.pendings.filter fun b => b.position.chainID == i

/-- The height record summarizing a list of blocks of one chain: the minimum
height and the number of blocks (heights are consecutive for DAG-respecting
inputs, matching the spec's consecutive-count semantics). -/
def recOfBlocks (bs : List Block) : totalOrderingHeightRecord :=
  match bs.map fun b => b.position.height with
  | [] => ⟨0, 0⟩
  | h :: t => ⟨(h :: t).foldl Nat.min h, (h :: t).length⟩

/-- Modelled from the spec (§4.4): the global vector's height record of chain
`i` summarizes all pending blocks of that chain. -/
def totalOrdering.globalRec (s : totalOrdering) (i : Nat) : totalOrderingHeightRecord :=
  recOfBlocks (s.chainBlocks i)

/-- The pending blocks of chain `i` whose ack-closure contains candidate `c`,
including the candidate itself — the blocks summarized by the candidate's
`ackedStatus[i]` (spec §3, C3). -/
def totalOrdering.candChainAckers (s : totalOrdering) (c : Hash) (i : Nat) : List Block :=
  (s.chainBlocks i).filter fun b => b.hash == c || decide (b.hash ∈ ackedGet s.acked c)

/-- The candidate's height record for chain `i`. -/
def totalOrdering.candRec (s : totalOrdering) (c : Hash) (i : Nat) : totalOrderingHeightRecord :=
  recOfBlocks (s.candChainAckers c i)

/-- The candidate-info of candidate `c`, derived from the engine state. -/
def totalOrdering.candInfo (s : totalOrdering) (c : Hash) : totalOrderingCandidateInfo :=
  ⟨c, (List.range s.numChains).map fun i => s.candRec c i, []⟩

/-- The global vector presented as a candidate-info (spec §4.4). -/
def totalOrdering.globalInfo (s : totalOrdering) : totalOrderingCandidateInfo :=
  ⟨0, (List.range s.numChains).map fun i => s.globalRec i, []⟩

/-- The current candidate hashes in ascending chain order. -/
def totalOrdering.candidateHashes (s : totalOrdering) : List Hash :=
  (List.range s.numChains).filterMap fun i => s.candidates.getD i none

/-- The candidate's acking-node-set size against the global vector. -/
def totalOrdering.ansLength (s : totalOrdering) (c : Hash) : Nat :=
  getAckingNodeSetLength (s.candInfo c) s.globalInfo s.k s.numChains

/-- The global acking-node-set size: the number of chains that have proposed
at least `k + 1` pending blocks. -/
def totalOrdering.globalAnsLength (s : totalOrdering) : Nat :=
  getAckingNodeSetLength s.globalInfo s.globalInfo s.k s.numChains

/-- Candidate `c` with refreshed cached height vector against the global vector
(every chain treated as dirty; spec §4.6 delivery step a). -/
def totalOrdering.hv (s : totalOrdering) (c : Hash) : totalOrderingCandidateInfo :=
  updateAckingHeightVector (s.candInfo c) s.globalInfo s.k (List.range s.numChains)

/-- Modelled from the spec: the preceding set — the candidates whose acking
node set covers strictly more than `phi` chains.  The strict threshold and its
role as the delivery criterion are pinned by the handcrafted scenarios: in
`TestBasicCaseForK0` candidate `b20` is delivered exactly when its acking node
set reaches 4 > phi = 3 chains while the others stay at ≤ 3, and in
`TestBasicCaseForK2` each delivered set consists exactly of the candidates
whose acking node set exceeds phi at that call. -/
def totalOrdering.precedings (s : totalOrdering) : List Hash :=
  s.candidateHashes.filter fun c => decide (s.phi < s.ansLength c)

/-- Modelled from the spec (§4.6 e(ii)): internal stability for early
delivery — every candidate outside the preceding set is graded 1 by some
preceding candidate. -/
def totalOrdering.internallyStable (s : totalOrdering) (P : List Hash) : Bool :=
  s.candidateHashes.all fun c =>
    decide (c ∈ P) ||
      P.any fun p =>
        (updateWinRecord (s.hv p) (s.hv c) s.numChains).grade s.numChains s.phi
            s.globalAnsLength == 1

/-- Modelled from the spec (§4.6 "Delivery decision"): deliver the preceding
set; the mode is Normal when the global acking node set covers every chain
(the whole picture of the DAG is revealed) and Early otherwise, in which case
internal stability is additionally required. -/
def totalOrdering.generateDeliverSet (s : totalOrdering) : List Hash × TotalOrderingMode :=
  let P := s.precedings
  if P.isEmpty then ([], .normal)
  else if s.globalAnsLength = s.numChains then (P, .normal)
  else if s.internallyStable P then (P, .early)
  else ([], .normal)

/-- A block acks only already-delivered blocks: none of its acks is pending
(spec §4.6 step 5 and lifecycle: candidacy requires the acked blocks to have
left the working set). -/
def isAckOnlyPrecedings (pendings : List Block) (b : Block) : Bool :=
  b.acks.all fun a => pendings.all fun p => p.hash != a

/-- Promote the lowest pending block of chain `i` to candidate when the chain
has none and that block acks only delivered blocks (spec §4.6 h). -/
def promoteIfFront (pendings : List Block) (numChains : Nat)
    (cs : List (Option Hash)) (i : Nat) : List (Option Hash) :=
  match cs.getD i none with
  | some _ => cs
  | none =>
    match (pendings.filter fun b => b.position.chainID == i).head? with
    | none => cs
    | some f => if isAckOnlyPrecedings pendings f then cs.set i (some f.hash) else cs

/-- Sorting a delivery set by block hash ascending (spec §4.6 f). -/
def sortByHash (bs : List Block) : List Block :=
  bs.insertionSort fun x y => x.hash ≤ y.hash

/-- Modelled from the spec (§4.6 h): remove each delivered block from
`pendings`, from `acked` (both as a key and as a member of other entries, per
invariants 1 and 6) and from the candidate tracking, then promote the eligible
lowest block of every candidate-less chain. -/
def totalOrdering.output (s : totalOrdering) (dh : List Hash) : totalOrdering :=
  let pendings' := s.pendings.filter fun b => decide (b.hash ∉ dh)
  let acked' := (s.acked.filter fun e => decide (e.1 ∉ dh)).map
    fun e => (e.1, e.2.filter fun x => decide (x ∉ dh))
  let cands0 := s.candidates.map fun c =>
    match c with
    | some h => if h ∈ dh then none else some h
    | none => none
  { s with
    pendings := pendings'
    acked := acked'
    candidates := (List.range s.numChains).foldl (promoteIfFront pendings' s.numChains) cands0 }

/-- Modelled from the spec (§4.6): `processBlock`, the only ingestion entry
point.  Steps: cycle-safe ack registration (self-acks ignored, invariant 2),
pending registration, candidate promotion on arrival, then the delivery
decision; a delivered set is emitted sorted by hash and removed from the
working set.  Round assignment, flushing and error returns for round-config
violations are outside the modelled single round. -/
def totalOrdering.processBlock (s : totalOrdering) (b : Block) :
    totalOrdering × List Block × TotalOrderingMode :=
  let reached := reachedFrom s.acked b.acks
  let acked' := reached.foldl (fun m a => if a = b.hash then m else ackedInsert m a b.hash) s.acked
  let pendings' := s.pendings ++ [b]
  let candidates' :=
    if b.position.chainID < s.numChains ∧ s.candidates.getD b.position.chainID none = none ∧
        isAckOnlyPrecedings pendings' b = true then
      s.candidates.set b.position.chainID (some b.hash)
    else s.candidates
  let s1 : totalOrdering :=
    { s with pendings := pendings', acked := acked', candidates := candidates' }
  let Pm := s1.generateDeliverSet
  if Pm.1.isEmpty then (s1, [], .normal)
  else
    (s1.output Pm.1, sortByHash (s1.pendings.filter fun blk => decide (blk.hash ∈ Pm.1)), Pm.2)

/-- Feed a sequence of blocks to the engine and collect the delivery set and
mode of every call (an empty list for calls that delivered nothing). -/
def runBlocks (s : totalOrdering) (seq : List Block) :
    totalOrdering × List (List Block × TotalOrderingMode) :=
  seq.foldl
    (fun acc b =>
      let r := acc.1.processBlock b
      (r.1, acc.2 ++ [r.2]))
    (s, [])

/-- Shorthand for building a test block. -/
def mkBlock (h : Hash) (chainID height : Nat) (acks : List Hash) : Block :=
  ⟨h, 0, 0, ⟨chainID, height, 0⟩, acks⟩

/-! Validation of the engine model against the handcrafted delivery scenarios
of `core/total-ordering_test.go`.  Hash values are chosen freely (the tests
draw them at random); block positions and ack lists are exactly those of the
tests. -/

/-- The DAG of `TestBasicCaseForK2` (`k = 2`, `phi = 3`, 5 chains), in the
revealed order of the test: `b00 = 100`, `b01 = 101`, …, `b40 = 140`,
`b41 = 141`, …; the three delivering calls are `b02`, `b03` and `b23`. -/
def basicK2Seq : List Block :=
  [mkBlock 100 0 0 [], mkBlock 110 1 0 [], mkBlock 111 1 1 [110, 100],
   mkBlock 101 0 1 [100, 111], mkBlock 120 2 0 [110], mkBlock 130 3 0 [120],
   mkBlock 121 2 1 [120, 101], mkBlock 131 3 1 [130, 121], mkBlock 132 3 2 [131],
   mkBlock 122 2 2 [121, 132], mkBlock 112 1 2 [111, 121], mkBlock 102 0 2 [101, 121],
   mkBlock 113 1 3 [112, 122], mkBlock 103 0 3 [102, 122], mkBlock 140 4 0 [],
   mkBlock 141 4 1 [140], mkBlock 142 4 2 [141], mkBlock 114 1 4 [113],
   mkBlock 123 2 3 [122]]

example :
    (runBlocks (newTotalOrdering 2 3 5) basicK2Seq).2.map
        (fun d => (d.1.map Block.hash, d.2)) =
      [([], .normal), ([], .normal), ([], .normal), ([], .normal), ([], .normal),
       ([], .normal), ([], .normal), ([], .normal), ([], .normal), ([], .normal),
       ([], .normal), ([100, 110], .early), ([], .normal), ([111, 120], .early),
       ([], .normal), ([], .normal), ([], .normal), ([], .normal),
       ([101, 130], .normal)] := by decide

/-- The DAG of `TestBasicCaseForK0` (`k = 0`, `phi = 3`, 5 chains); the
delivering call is `b40`. -/
def basicK0Seq : List Block :=
  [mkBlock 100 0 0 [], mkBlock 110 1 0 [], mkBlock 120 2 0 [], mkBlock 130 3 0 [120],
   mkBlock 101 0 1 [100, 110], mkBlock 111 1 1 [110, 120], mkBlock 121 2 1 [120],
   mkBlock 131 3 1 [121, 130], mkBlock 140 4 0 [131]]

example :
    (runBlocks (newTotalOrdering 0 3 5) basicK0Seq).2.map
        (fun d => (d.1.map Block.hash, d.2)) =
      [([], .normal), ([], .normal), ([], .normal), ([], .normal), ([], .normal),
       ([], .normal), ([], .normal), ([], .normal), ([120], .normal)] := by decide

/-- The DAG of `TestEarlyDeliver` (`k = 2`, `phi = 3`, 5 chains); the
delivering call is `b32` and delivers `b00` alone in early mode. -/
def earlyDeliverSeq : List Block :=
  [mkBlock 100 0 0 [], mkBlock 101 0 1 [100], mkBlock 102 0 2 [101],
   mkBlock 110 1 0 [100], mkBlock 111 1 1 [110], mkBlock 112 1 2 [111],
   mkBlock 120 2 0 [100], mkBlock 121 2 1 [120], mkBlock 122 2 2 [121],
   mkBlock 130 3 0 [100], mkBlock 131 3 1 [130], mkBlock 132 3 2 [131]]

example :
    (runBlocks (newTotalOrdering 2 3 5) earlyDeliverSeq).2.map
        (fun d => (d.1.map Block.hash, d.2)) =
      [([], .normal), ([], .normal), ([], .normal), ([], .normal), ([], .normal),
       ([], .normal), ([], .normal), ([], .normal), ([], .normal), ([], .normal),
       ([], .normal), ([100], .early)] := by decide

example :
    (runBlocks (newTotalOrdering 2 3 5) earlyDeliverSeq).1.candidates =
      [some 101, some 110, some 120, some 130, none] := by decide

/-! ### C3: delivery sets are emitted in ascending hash order -/

instance : IsTotal Block fun x y => x.hash ≤ y.hash := ⟨fun _ _ => Nat.le_total _ _⟩

instance : IsTrans Block fun x y => x.hash ≤ y.hash := ⟨fun _ _ _ => Nat.le_trans⟩

/-- The hashes of a hash-sorted block list are sorted. -/
theorem sortByHash_hashes_sorted (bs : List Block) :
    ((sortByHash bs).map Block.hash).Sorted (· ≤ ·) :=
  List.Pairwise.map Block.hash (fun _ _ h => h)
    (List.sorted_insertionSort (fun x y : Block => x.hash ≤ y.hash) bs)

/-- Sorting preserves the multiset of hashes. -/
theorem sortByHash_hashes_perm (bs : List Block) :
    List.Perm ((sortByHash bs).map Block.hash) (bs.map Block.hash) :=
  (List.perm_insertionSort (fun x y : Block => x.hash ≤ y.hash) bs).map Block.hash

/-- A sorted list of distinct naturals is strictly ascending. -/
theorem sorted_lt_of_sorted_le_nodup {l : List Nat} (hs : l.Sorted (· ≤ ·))
    (hn : l.Nodup) : l.Sorted (· < ·) :=
  (hs.and hn).imp fun h => lt_of_le_of_ne h.1 h.2

/-- Sorting a block list with distinct hashes by hash yields strictly
ascending hashes. -/
theorem sortByHash_hashes_sorted_lt (bs : List Block)
    (hnd : (bs.map Block.hash).Nodup) :
    ((sortByHash bs).map Block.hash).Sorted (· < ·) :=
  sorted_lt_of_sorted_le_nodup (sortByHash_hashes_sorted bs)
    ((sortByHash_hashes_perm bs).nodup_iff.2 hnd)

/-- C3: every call to `processBlock` on a state whose pending blocks (together
with the arriving block) have distinct hashes emits its delivery set in
strictly ascending order of block hash; this holds for every delivery set
regardless of the mode. -/
theorem C3_theorem (s : totalOrdering) (b : Block)
    (hnd : ((s.pendings ++ [b]).map Block.hash).Nodup) :
    ((s.processBlock b).2.1.map Block.hash).Sorted (· < ·) := by
  unfold totalOrdering.processBlock
  dsimp only
  split <;> split <;> dsimp only <;>
    first
      | simpa using List.sorted_nil
      | (refine sortByHash_hashes_sorted_lt _ (hnd.sublist ?_)
         first
           | exact (List.filter_sublist _).map Block.hash
           | (rw [← List.filter_append]
              exact (List.filter_sublist _).map Block.hash))

/-- Witness for `C3_theorem`: the first delivering call of the
`TestBasicCaseForK2` scenario emits the two-block set `{b00, b10}` with
strictly ascending hashes. -/
theorem C3_witness :
    ((((runBlocks (newTotalOrdering 2 3 5) (basicK2Seq.take 11)).1.pendings ++
        [mkBlock 102 0 2 [101, 121]]).map Block.hash).Nodup) ∧
    ((((runBlocks (newTotalOrdering 2 3 5) (basicK2Seq.take 11)).1.processBlock
        (mkBlock 102 0 2 [101, 121])).2.1.map Block.hash).Sorted (· < ·)) :=
  ⟨by decide, C3_theorem _ _ (by decide)⟩

/-! ### C5: cycle safety -/

/-- The hash that closes the ack cycle in `TestCycleDetection`: `b00` acks it
before any block carries it, and `b03` — a descendant of `b00` — later arrives
with exactly this hash. -/
def cycledHash : Hash := 999

/-- The five blocks of `TestCycleDetection`: the chain
`b00 ← b01 ← b02 ← b03` with `b03.hash = cycledHash ∈ b00.acks`, plus the
self-acking `b10`. -/
def cycleSeq : List Block :=
  [mkBlock 200 0 0 [cycledHash], mkBlock 201 0 1 [200], mkBlock 202 0 2 [201],
   mkBlock cycledHash 0 3 [202], ⟨210, 0, 0, ⟨1, 0, 0⟩, [210]⟩]

/-- C5: `processBlock` terminates on every input — in this model the ack
registration is the spec's flat `acked` index (§4.6 step 1, §9), which never
recurses through the ack graph, so the function is structurally total even on
cyclic inputs.  On the `TestCycleDetection` scenario — a block acking a hash
that later appears as the hash of a descendant block, and a self-acking
block — every call returns normally with an empty delivery set, all five
blocks are accepted into `pendings`, and no block ever acks itself in the
`acked` index. -/
theorem C5_theorem :
    (runBlocks (newTotalOrdering 1 3 5) cycleSeq).2 =
      [([], .normal), ([], .normal), ([], .normal), ([], .normal), ([], .normal)] ∧
    (runBlocks (newTotalOrdering 1 3 5) cycleSeq).1.pendings.map Block.hash =
      [200, 201, 202, cycledHash, 210] ∧
    cycledHash ∉ ackedGet (runBlocks (newTotalOrdering 1 3 5) cycleSeq).1.acked cycledHash ∧
    (210 : Hash) ∉ ackedGet (runBlocks (newTotalOrdering 1 3 5) cycleSeq).1.acked 210 := by
  decide

/-! ### C10: `NodeSet.GetSubSet` from `core/types/nodeset.go` -/

/-- `nodeRank` from `nodeset.go`: a node — modelled by its 32-byte hash read
as a natural number, which is exactly how `newNodeRank` consumes it — together
with its rank. -/
structure nodeRank where
  ID : Nat
  rank : Nat
deriving DecidableEq, Repr

/-- `newNodeRank` from `nodeset.go`: the rank is the absolute big-integer
difference between the target and the node hash (`num.Abs(num.Sub(target,
num))`), here the natural absolute difference. -/
def newNodeRank (ID target : Nat) : nodeRank :=
  ⟨ID, (target - ID) + (ID - target)⟩

/-- Heap slot read; all verified accesses are in range. -/
def hget (l : List nodeRank) (i : Nat) : nodeRank := l.getD i ⟨0, 0⟩

/-- `rankHeap.Swap` from `nodeset.go`. -/
def hswap (l : List nodeRank) (i j : Nat) : List nodeRank :=
  (l.set i (hget l j)).set j (hget l i)

theorem hswap_length (l : List nodeRank) (i j : Nat) :
    (hswap l i j).length = l.length := by
  simp [hswap]

/-- The child of `i` that `down` descends to: the in-range child of larger
rank (`h.Less(j2, j1)` in `container/heap`'s `down` picks the right child
exactly when its rank exceeds the left child's). -/
def maxChild (l : List nodeRank) (i : Nat) : Nat :=
  if 2 * i + 2 < l.length ∧ (hget l (2 * i + 1)).rank < (hget l (2 * i + 2)).rank
  then 2 * i + 2 else 2 * i + 1

theorem lt_maxChild (l : List nodeRank) (i : Nat) : i < maxChild l i := by
  unfold maxChild
  split <;> omega

theorem maxChild_cases (l : List nodeRank) (i : Nat) :
    maxChild l i = 2 * i + 1 ∨ maxChild l i = 2 * i + 2 := by
  unfold maxChild
  split <;> omega

theorem maxChild_lt (l : List nodeRank) (i : Nat) (h : 2 * i + 1 < l.length) :
    maxChild l i < l.length := by
  unfold maxChild
  split <;> omega

/-- The undominated child: every in-range child's rank is at most the rank at
`maxChild`. -/
theorem rank_le_maxChild (l : List nodeRank) (i c : Nat)
    (hc : c = 2 * i + 1 ∨ c = 2 * i + 2) (hlt : c < l.length) :
    (hget l c).rank ≤ (hget l (maxChild l i)).rank := by
  unfold maxChild
  rcases hc with rfl | rfl <;> split <;> rename_i hcond <;> first
    | omega
    | exact Nat.le_refl _
    | exact Nat.le_of_lt hcond.2
    | exact Nat.le_of_not_lt fun hcon => hcond ⟨hlt, hcon⟩

/-- `container/heap`'s `down`, specialized to `rankHeap` whose `Less(i, j)`
holds when slot `i`'s rank exceeds slot `j`'s (a max-heap by rank): sift the
element at `i` down, descending towards the child of larger rank while that
child's rank exceeds the element's. -/
def down (l : List nodeRank) (i : Nat) : List nodeRank :=
  if h1 : 2 * i + 1 < l.length then
    if (hget l i).rank < (hget l (maxChild l i)).rank then
      down (hswap l i (maxChild l i)) (maxChild l i)
    else l
  else l
termination_by l.length - i
decreasing_by
  simp only [hswap_length]
  have := lt_maxChild l i
  have := maxChild_lt l i h1
  omega

/-- `container/heap`'s `Init` processes the internal nodes from `n/2 - 1` down
to `0`; `heapInitAux l m` performs the downs at `m - 1, …, 1, 0`. -/
def heapInitAux (l : List nodeRank) : Nat → List nodeRank
  | 0 => l
  | m + 1 => heapInitAux (down l m) m

/-- `heap.Init` from `container/heap`. -/
def heapInit (l : List nodeRank) : List nodeRank :=
  heapInitAux l (l.length / 2)

/-- The loop of `GetSubSet` over the node set, carrying the running index and
the heap slice.  `none` models the Go runtime panic of the root access `h[0]`
on an empty heap, which occurs exactly when the index reaches `size` with an
empty slice (`size = 0` with a nonempty node set).  `heap.Fix(&h, 0)` is
`down` at the root: `up(0)` never moves. -/
def getSubSetLoop (target size : Nat) :
    List Nat → Nat → List nodeRank → Option (List nodeRank)
  | [], _, h => some h
  | nID :: rest, idx, h =>
    if idx < size then
      getSubSetLoop target size rest (idx + 1) (h ++ [newNodeRank nID target])
    else
      let h1 := if idx = size then heapInit h else h
      match h1 with
      | [] => none
      | top :: t =>
        let rk := newNodeRank nID target
        if rk.rank < top.rank then
          getSubSetLoop target size rest (idx + 1) (down ((top :: t).set 0 rk) 0)
        else getSubSetLoop target size rest (idx + 1) (top :: t)

/-- `GetSubSet` from `nodeset.go`, iterating the node set in an arbitrary
order `ns` (Go map iteration order is unspecified) and returning the IDs held
by the final heap slice. -/
def GetSubSet (ns : List Nat) (size target : Nat) : Option (List Nat) :=
  (getSubSetLoop target size ns 0 []).map fun h => h.map nodeRank.ID

/-- The rank `GetSubSet` assigns to a node for a given target. -/
def rankOf (target ID : Nat) : Nat := (newNodeRank ID target).rank

/-- Membership of index `j` in the subtree rooted at index `i` of a binary
heap in 0-based breadth-first indexing. -/
inductive InTree : Nat → Nat → Prop where
  | refl (i : Nat) : InTree i i
  | left {i k : Nat} : InTree (2 * i + 1) k → InTree i k
  | right {i k : Nat} : InTree (2 * i + 2) k → InTree i k

theorem InTree.le {i j : Nat} (h : InTree i j) : i ≤ j := by
  induction h with
  | refl => exact Nat.le_refl _
  | left _ ih => omega
  | right _ ih => omega

theorem InTree.trans {a b c : Nat} (h1 : InTree a b) (h2 : InTree b c) : InTree a c := by
  induction h1 with
  | refl => exact h2
  | left _ ih => exact .left (ih h2)
  | right _ ih => exact .right (ih h2)

theorem InTree.child {r p c : Nat} (h : InTree r p)
    (hc : c = 2 * p + 1 ∨ c = 2 * p + 2) : InTree r c := by
  induction h with
  | refl i => rcases hc with rfl | rfl
              · exact .left (.refl _)
              · exact .right (.refl _)
  | left _ ih => exact .left (ih hc)
  | right _ ih => exact .right (ih hc)

/-- Bottom-up characterization: `j` lies in `i`'s subtree iff `j = i` or `j`'s
parent does. -/
theorem inTree_iff {r i : Nat} :
    InTree r i ↔ i = r ∨ (0 < i ∧ InTree r ((i - 1) / 2)) := by
  constructor
  · intro h
    induction h with
    | refl i => exact .inl rfl
    | @left a k h ih =>
      rcases ih with rfl | ⟨hpos, hp⟩
      · refine .inr ⟨by omega, ?_⟩
        have harith : (2 * a + 1 - 1) / 2 = a := by omega
        rw [harith]
        exact .refl _
      · exact .inr ⟨hpos, .left hp⟩
    | @right a k h ih =>
      rcases ih with rfl | ⟨hpos, hp⟩
      · refine .inr ⟨by omega, ?_⟩
        have harith : (2 * a + 2 - 1) / 2 = a := by omega
        rw [harith]
        exact .refl _
      · exact .inr ⟨hpos, .right hp⟩
  · rintro (rfl | ⟨hpos, hp⟩)
    · exact .refl _
    · exact hp.child (by omega)

/-- Every index lies in the subtree of the root. -/
theorem inTree_zero (i : Nat) : InTree 0 i := by
  induction i using Nat.strong_induction_on with
  | _ i ih =>
    rcases Nat.eq_zero_or_pos i with rfl | hpos
    · exact .refl 0
    · exact inTree_iff.2 (.inr ⟨hpos, ih _ (by omega)⟩)

/-- Two subtrees containing a common index are nested. -/
theorem inTree_total {a b k : Nat} (ha : InTree a k) (hb : InTree b k) :
    InTree a b ∨ InTree b a := by
  induction k using Nat.strong_induction_on with
  | _ k ih =>
    rcases inTree_iff.1 ha with rfl | ⟨hpos, hpa⟩
    · exact .inr hb
    · rcases inTree_iff.1 hb with rfl | ⟨_, hpb⟩
      · exact .inl ha
      · exact ih _ (by omega) hpa hpb

theorem hget_eq_getElem (l : List nodeRank) (i : Nat) (h : i < l.length) :
    hget l i = l[i] := by
  simp [hget, List.getD_eq_getElem?_getD, List.getElem?_eq_getElem h]

theorem hget_set_self (l : List nodeRank) (i : Nat) (x : nodeRank)
    (h : i < l.length) : hget (l.set i x) i = x := by
  simp [hget, List.getD_eq_getElem?_getD, List.getElem?_set_self h]

theorem hget_set_ne (l : List nodeRank) (i j : Nat) (x : nodeRank)
    (h : i ≠ j) : hget (l.set i x) j = hget l j := by
  simp [hget, List.getD_eq_getElem?_getD, List.getElem?_set_ne h]

theorem hget_hswap_left (l : List nodeRank) (i j : Nat) (hi : i < l.length)
    (hij : i ≠ j) : hget (hswap l i j) i = hget l j := by
  unfold hswap
  rw [hget_set_ne _ _ _ _ (Ne.symm hij), hget_set_self _ _ _ hi]

theorem hget_hswap_right (l : List nodeRank) (i j : Nat) (hj : j < l.length) :
    hget (hswap l i j) j = hget l i := by
  unfold hswap
  rw [hget_set_self]
  simpa using hj

theorem hget_hswap_other (l : List nodeRank) (i j m : Nat) (hmi : m ≠ i)
    (hmj : m ≠ j) : hget (hswap l i j) m = hget l m := by
  unfold hswap
  rw [hget_set_ne _ _ _ _ (Ne.symm hmj), hget_set_ne _ _ _ _ (Ne.symm hmi)]

theorem hswap_perm (l : List nodeRank) (i j : Nat) (hi : i < l.length)
    (hj : j < l.length) : List.Perm (hswap l i j) l := by
  rw [List.perm_iff_count]
  intro a
  have hj' : j < (l.set i (hget l j)).length := by simpa using hj
  have hcount1 : (l[i] == a) = true → 1 ≤ l.count a := fun hbeq =>
    List.one_le_count_iff.2 ((beq_iff_eq.1 hbeq) ▸ l.getElem_mem hi)
  have hcount2 : (l[j] == a) = true → 1 ≤ l.count a := fun hbeq =>
    List.one_le_count_iff.2 ((beq_iff_eq.1 hbeq) ▸ l.getElem_mem hj)
  unfold hswap
  rw [List.count_set _ _ _ _ hj', List.count_set _ _ _ _ hi]
  have hA : (if (l[i] == a) = true then (1 : Nat) else 0) ≤ l.count a := by
    split
    · exact hcount1 ‹_›
    · exact Nat.zero_le _
  rcases eq_or_ne i j with rfl | hij
  · simp only [hget_eq_getElem _ _ hi, List.getElem_set_self]
    set A := (if (l[i] == a) = true then (1 : Nat) else 0) with hAdef
    omega
  · simp only [hget_eq_getElem _ _ hi, hget_eq_getElem _ _ hj,
      List.getElem_set_ne hij]
    set A := (if (l[i] == a) = true then (1 : Nat) else 0) with hAdef
    set B := (if (l[j] == a) = true then (1 : Nat) else 0) with hBdef
    omega

/-- The max-heap property of `rankHeap` on the subtree rooted at `r`: every
in-range child's rank is at most its parent's. -/
def SubHeap (l : List nodeRank) (r : Nat) : Prop :=
  ∀ p c, InTree r p → (c = 2 * p + 1 ∨ c = 2 * p + 2) → c < l.length →
    (hget l c).rank ≤ (hget l p).rank

theorem inTree_inv {i m : Nat} (h : InTree i m) :
    m = i ∨ InTree (2 * i + 1) m ∨ InTree (2 * i + 2) m := by
  cases h with
  | refl => exact .inl rfl
  | left h => exact .inr (.inl h)
  | right h => exact .inr (.inr h)

/-- The two child subtrees are disjoint. -/
theorem inTree_children_disjoint {i m : Nat} (h1 : InTree (2 * i + 1) m)
    (h2 : InTree (2 * i + 2) m) : False := by
  rcases inTree_total h1 h2 with hc | hc
  · rcases inTree_iff.1 hc with heq | ⟨_, hp⟩
    · omega
    · have harith : (2 * i + 2 - 1) / 2 = i := by omega
      rw [harith] at hp
      have := hp.le
      omega
  · have := hc.le
    omega

/-- A subtree of a subtree satisfying the heap property satisfies it too. -/
theorem SubHeap.mono {l : List nodeRank} {r r' : Nat} (h : SubHeap l r)
    (hr : InTree r r') : SubHeap l r' :=
  fun p c hp hc hlt => h p c (hr.trans hp) hc hlt

/-- The heap property transfers along pointwise equality on the subtree. -/
theorem SubHeap.congr {l l' : List nodeRank} {r : Nat} (h : SubHeap l r)
    (hlen : l'.length = l.length)
    (heq : ∀ m, InTree r m → hget l' m = hget l m) : SubHeap l' r := by
  intro p c hp hc hlt
  rw [heq p hp, heq c (hp.child hc)]
  exact h p c hp hc (hlen ▸ hlt)

/-- In a subtree with the heap property, every element is at most the
subtree's root. -/
theorem SubHeap.le_root {l : List nodeRank} {r : Nat} (h : SubHeap l r) :
    ∀ m, InTree r m → m < l.length → (hget l m).rank ≤ (hget l r).rank := by
  intro m
  induction m using Nat.strong_induction_on with
  | _ m ih =>
    intro hm hlt
    rcases inTree_iff.1 hm with rfl | ⟨hpos, hp⟩
    · exact Nat.le_refl _
    · have hchild : m = 2 * ((m - 1) / 2) + 1 ∨ m = 2 * ((m - 1) / 2) + 2 := by omega
      have hstep := h _ _ hp hchild hlt
      have hple : (m - 1) / 2 < l.length := by omega
      exact Nat.le_trans hstep (ih _ (by omega) hp hple)

/-- Indices whose children are out of range root trivially heap-shaped
subtrees. -/
theorem subHeap_of_no_children {l : List nodeRank} {r : Nat}
    (h : l.length ≤ 2 * r + 1) : SubHeap l r := by
  intro p c hp hc hlt
  have := hp.le
  omega

/-- `down` permutes the slice. -/
theorem down_perm (l : List nodeRank) (i : Nat) : List.Perm (down l i) l := by
  induction l, i using down.induct with
  | case1 l i h1 hlt ih =>
    rw [down]
    simp only [dif_pos h1, if_pos hlt]
    exact ih.trans (hswap_perm l i (maxChild l i) (by have := lt_maxChild l i; omega)
      (maxChild_lt l i h1))
  | case2 l i h1 hlt =>
    rw [down]
    simp only [dif_pos h1, if_neg hlt]
    exact List.Perm.refl l
  | case3 l i h1 =>
    rw [down]
    simp only [dif_neg h1]
    exact List.Perm.refl l

theorem down_length (l : List nodeRank) (i : Nat) :
    (down l i).length = l.length :=
  (down_perm l i).length_eq

/-- `down` only modifies slots inside the subtree it sifts. -/
theorem down_untouched (l : List nodeRank) (i : Nat) :
    ∀ m, ¬InTree i m → hget (down l i) m = hget l m := by
  induction l, i using down.induct with
  | case1 l i h1 hlt ih =>
    intro m hm
    rw [down]
    simp only [dif_pos h1, if_pos hlt]
    have hmj : ¬InTree (maxChild l i) m := fun hc =>
      hm (((InTree.refl i).child (maxChild_cases l i)).trans hc)
    rw [ih m hmj]
    exact hget_hswap_other l i (maxChild l i) m
      (fun hc => hm (hc ▸ InTree.refl i)) (fun hc => hm (hc ▸ (InTree.refl i).child (maxChild_cases l i)))
  | case2 l i h1 hlt =>
    intro m _
    rw [down]
    simp only [dif_pos h1, if_neg hlt]
  | case3 l i h1 =>
    intro m _
    rw [down]
    simp only [dif_neg h1]

/-- `down` keeps any uniform rank bound over the sifted subtree. -/
theorem down_bound (l : List nodeRank) (i : Nat) (B : Nat)
    (hb : ∀ m, InTree i m → m < l.length → (hget l m).rank ≤ B) :
    ∀ m, InTree i m → m < (down l i).length → (hget (down l i) m).rank ≤ B := by
  induction l, i using down.induct with
  | case1 l i h1 hlt ih =>
    have hmc1 : i < maxChild l i := lt_maxChild l i
    have hmc2 : maxChild l i < l.length := maxChild_lt l i h1
    have hnext : ∀ m, InTree (maxChild l i) m → m < (hswap l i (maxChild l i)).length →
        (hget (hswap l i (maxChild l i)) m).rank ≤ B := by
      intro m hm hml
      rw [hswap_length] at hml
      by_cases hmi : m = i
      · exact absurd hm.le (by omega)
      by_cases hmj : m = maxChild l i
      · rw [hmj, hget_hswap_right l i (maxChild l i) hmc2]
        exact hb i (.refl i) (by omega)
      · rw [hget_hswap_other l i (maxChild l i) m hmi hmj]
        exact hb m (((InTree.refl i).child (maxChild_cases l i)).trans hm) hml
    intro m hm hml
    rw [down] at hml ⊢
    simp only [dif_pos h1, if_pos hlt] at hml ⊢
    by_cases hmj : InTree (maxChild l i) m
    · exact ih hnext m hmj hml
    · rw [down_untouched _ _ m hmj]
      by_cases hmi : m = i
      · rw [hmi, hget_hswap_left l i (maxChild l i) (by omega) (by omega)]
        exact hb _ ((InTree.refl i).child (maxChild_cases l i)) hmc2
      · have hmj2 : m ≠ maxChild l i := fun hc => hmj (hc ▸ InTree.refl _)
        rw [hget_hswap_other l i (maxChild l i) m hmi hmj2]
        refine hb m hm ?_
        rw [down_length, hswap_length] at hml
        exact hml
  | case2 l i h1 hlt =>
    intro m hm hml
    rw [down] at hml ⊢
    simp only [dif_pos h1, if_neg hlt] at hml ⊢
    exact hb m hm hml
  | case3 l i h1 =>
    intro m hm hml
    rw [down] at hml ⊢
    simp only [dif_neg h1] at hml ⊢
    exact hb m hm hml

/-- Distinct siblings root disjoint subtrees. -/
theorem not_inTree_sibling {i c j : Nat} (hc : c = 2 * i + 1 ∨ c = 2 * i + 2)
    (hj : j = 2 * i + 1 ∨ j = 2 * i + 2) (hne : c ≠ j) : ¬InTree j c := by
  intro hcon
  rcases inTree_iff.1 hcon with heq | ⟨hpos, hp⟩
  · exact hne heq
  · have hpar : (c - 1) / 2 = i := by omega
    rw [hpar] at hp
    have := hp.le
    omega

/-- Sifting down at `i` restores the heap property of `i`'s subtree when both
child subtrees already satisfy it. -/
theorem down_subHeap (l : List nodeRank) (i : Nat)
    (hL : SubHeap l (2 * i + 1)) (hR : SubHeap l (2 * i + 2)) :
    SubHeap (down l i) i := by
  induction l, i using down.induct with
  | case3 l i h1 =>
    rw [down]
    simp only [dif_neg h1]
    intro p c hp hc hclen
    rcases inTree_inv hp with rfl | hsub | hsub
    · omega
    · exact hL p c hsub hc hclen
    · exact hR p c hsub hc hclen
  | case2 l i h1 hlt =>
    rw [down]
    simp only [dif_pos h1, if_neg hlt]
    intro p c hp hc hclen
    rcases inTree_inv hp with rfl | hsub | hsub
    · exact Nat.le_trans (rank_le_maxChild l p c hc hclen) (Nat.le_of_not_lt hlt)
    · exact hL p c hsub hc hclen
    · exact hR p c hsub hc hclen
  | case1 l i h1 hlt ih =>
    have hi : i < l.length := by omega
    have hjlt : maxChild l i < l.length := maxChild_lt l i h1
    have hij : i < maxChild l i := lt_maxChild l i
    have hjc := maxChild_cases l i
    have hSj : SubHeap l (maxChild l i) := by
      rcases hjc with hj | hj
      · rw [hj]; exact hL
      · rw [hj]; exact hR
    have hswlen : (hswap l i (maxChild l i)).length = l.length := hswap_length _ _ _
    have hLR' : ∀ c', (c' = 2 * maxChild l i + 1 ∨ c' = 2 * maxChild l i + 2) →
        SubHeap (hswap l i (maxChild l i)) c' := by
      intro c' hc'
      refine (hSj.mono ((InTree.refl _).child hc')).congr hswlen ?_
      intro m hm
      have hmge := hm.le
      exact hget_hswap_other l i (maxChild l i) m (by omega) (by omega)
    have hD := ih (hLR' _ (.inl rfl)) (hLR' _ (.inr rfl))
    rw [down]
    simp only [dif_pos h1, if_pos hlt]
    intro p c hp hc hclen
    have hclenl : c < l.length := by
      simpa [down_length, hswap_length] using hclen
    by_cases hpj : InTree (maxChild l i) p
    · exact hD p c hpj hc hclen
    · have hDval : ∀ m, ¬InTree (maxChild l i) m → m ≠ i →
          hget (down (hswap l i (maxChild l i)) (maxChild l i)) m = hget l m := by
        intro m hmj hmi
        rw [down_untouched _ _ m hmj]
        exact hget_hswap_other l i (maxChild l i) m hmi (fun hc2 => hmj (hc2 ▸ .refl _))
      have hDi : hget (down (hswap l i (maxChild l i)) (maxChild l i)) i =
          hget l (maxChild l i) := by
        rw [down_untouched _ _ i (fun hc2 => absurd hc2.le (by omega))]
        exact hget_hswap_left l i (maxChild l i) hi (by omega)
      by_cases hpi : p = i
      · rw [hpi] at hc ⊢
        rw [hDi]
        by_cases hcj : c = maxChild l i
        · rw [hcj]
          refine down_bound _ _ ((hget l (maxChild l i)).rank) ?_ _ (.refl _) ?_
          · intro m hm hml
            rw [hswap_length] at hml
            by_cases hmj : m = maxChild l i
            · rw [hmj, hget_hswap_right l i _ hjlt]
              exact Nat.le_of_lt hlt
            · have hmi : m ≠ i := fun hcon => absurd hm.le (by omega)
              rw [hget_hswap_other l i _ m hmi hmj]
              exact hSj.le_root m hm hml
          · rw [down_length, hswap_length]
            exact hjlt
        · rw [hDval c (not_inTree_sibling hc hjc hcj) (by omega)]
          exact rank_le_maxChild l i c hc hclenl
      · have hpo : ∃ o, (o = 2 * i + 1 ∨ o = 2 * i + 2) ∧ o ≠ maxChild l i ∧
            InTree o p := by
          rcases inTree_inv hp with heq | hs | hs
          · exact absurd heq hpi
          · rcases hjc with hj | hj
            · exact absurd (hj ▸ hs) hpj
            · exact ⟨2 * i + 1, .inl rfl, by omega, hs⟩
          · rcases hjc with hj | hj
            · exact ⟨2 * i + 2, .inr rfl, by omega, hs⟩
            · exact absurd (hj ▸ hs) hpj
        obtain ⟨o, ho, honej, hop⟩ := hpo
        have hSo : SubHeap l o := by
          rcases ho with rfl | rfl
          · exact hL
          · exact hR
        have hvals : ∀ m, InTree o m →
            hget (down (hswap l i (maxChild l i)) (maxChild l i)) m = hget l m := by
          intro m hm
          refine hDval m ?_ ?_
          · intro hcon
            rcases inTree_total hcon hm with hx | hx
            · exact not_inTree_sibling ho hjc honej hx
            · exact not_inTree_sibling hjc ho (Ne.symm honej) hx
          · have := hm.le
            rcases ho with rfl | rfl <;> omega
        rw [hvals c (hop.child hc), hvals p hop]
        exact hSo p c hop hc hclenl

theorem heapInitAux_length (l : List nodeRank) (m : Nat) :
    (heapInitAux l m).length = l.length := by
  induction m generalizing l with
  | zero => rfl
  | succ m ih => rw [heapInitAux, ih, down_length]

theorem heapInitAux_perm (l : List nodeRank) (m : Nat) :
    List.Perm (heapInitAux l m) l := by
  induction m generalizing l with
  | zero => exact List.Perm.refl l
  | succ m ih => exact (ih (down l m)).trans (down_perm l m)

/-- Bottom-up heapification: if every subtree rooted at an index `≥ m` is
already a heap, running `down` at `m-1, ..., 0` makes the whole list a heap. -/
theorem heapInitAux_subHeap (l : List nodeRank) (m : Nat)
    (hl : ∀ j, m ≤ j → SubHeap l j) : ∀ j, SubHeap (heapInitAux l m) j := by
  induction m generalizing l with
  | zero => exact fun j => hl j (Nat.zero_le j)
  | succ m ih =>
    rw [heapInitAux]
    refine ih (down l m) ?_
    intro j hj
    rcases Nat.eq_or_lt_of_le hj with heq | hjgt
    · rw [← heq]
      exact down_subHeap l m (hl _ (by omega)) (hl _ (by omega))
    · by_cases hjm : InTree m j
      · exact (down_subHeap l m (hl _ (by omega)) (hl _ (by omega))).mono hjm
      · refine (hl j (by omega)).congr (down_length l m) ?_
        intro p hp
        refine down_untouched l m p ?_
        intro hmp
        rcases inTree_total hmp hp with hx | hx
        · exact hjm hx
        · exact absurd hx.le (by omega)

theorem heapInit_length (l : List nodeRank) : (heapInit l).length = l.length :=
  heapInitAux_length l (l.length / 2)

theorem heapInit_perm (l : List nodeRank) : List.Perm (heapInit l) l :=
  heapInitAux_perm l (l.length / 2)

/-- `heap.Init` establishes the max-heap property. -/
theorem heapInit_subHeap (l : List nodeRank) : SubHeap (heapInit l) 0 := by
  refine heapInitAux_subHeap l (l.length / 2) ?_ 0
  intro j hj
  exact subHeap_of_no_children (by omega)

theorem hget_mem (l : List nodeRank) (i : Nat) (h : i < l.length) :
    hget l i ∈ l := by
  rw [hget_eq_getElem l i h]
  exact List.getElem_mem h

theorem hget_cons_zero (a : nodeRank) (l : List nodeRank) : hget (a :: l) 0 = a :=
  rfl

/-- In a max-heap the root bounds every element. -/
theorem heap_max {h : List nodeRank} (hs : SubHeap h 0) :
    ∀ x ∈ h, x.rank ≤ (hget h 0).rank := by
  intro x hx
  obtain ⟨m, hm, rfl⟩ := List.getElem_of_mem hx
  rw [← hget_eq_getElem h m hm]
  exact hs.le_root m (inTree_zero m) hm

/-- Replacing the root of a heap leaves both child subtrees heaps. -/
theorem subHeap_cons_replace (top rk : nodeRank) (t : List nodeRank)
    (hs : SubHeap (top :: t) 0) (c : Nat) (hc : c = 1 ∨ c = 2) :
    SubHeap (rk :: t) c := by
  have h1 : SubHeap (top :: t) c := hs.mono (inTree_zero c)
  refine h1.congr (by simp) ?_
  intro m hm
  have hge := hm.le
  obtain ⟨k, rfl⟩ : ∃ k, m = k + 1 := ⟨m - 1, by omega⟩
  simp [hget, List.getD_cons_succ]

/-- Phase 1 of the `GetSubSet` loop: while fewer than `size` nodes have been
seen, each node is appended to the heap slice. -/
theorem getSubSetLoop_phase1 (target size : Nat) :
    ∀ (ns : List Nat) (idx : Nat) (h : List nodeRank), idx + ns.length ≤ size →
      getSubSetLoop target size ns idx h =
        some (h ++ ns.map fun n => newNodeRank n target) := by
  intro ns
  induction ns with
  | nil =>
    intro idx h _
    simp [getSubSetLoop]
  | cons nID rest ih =>
    intro idx h hle
    rw [getSubSetLoop]
    rw [if_pos (by simp at hle; omega)]
    rw [ih (idx + 1) _ (by simp at hle ⊢; omega)]
    simp

/-- Splitting a run of the loop at the point where the index reaches `size`. -/
theorem getSubSetLoop_phase1_split (target size : Nat) :
    ∀ (ns1 ns2 : List Nat) (idx : Nat) (h : List nodeRank),
      idx + ns1.length = size →
      getSubSetLoop target size (ns1 ++ ns2) idx h =
        getSubSetLoop target size ns2 size
          (h ++ ns1.map fun n => newNodeRank n target) := by
  intro ns1
  induction ns1 with
  | nil =>
    intro ns2 idx h hlen
    simp at hlen
    subst hlen
    simp
  | cons nID rest ih =>
    intro ns2 idx h hlen
    simp only [List.cons_append]
    rw [getSubSetLoop]
    rw [if_pos (by simp at hlen; omega)]
    rw [ih ns2 (idx + 1) _ (by simp at hlen ⊢; omega)]
    simp

/-- Phase 2 of the `GetSubSet` loop: once `size` nodes are in the heap slice,
the slice keeps exactly `size` elements, the slice plus the discarded elements
permute everything seen, and every discarded element ranks at least as high as
the final root (hence, by the heap property, as every kept element). -/
theorem getSubSetLoop_phase2 (target size : Nat) (hsz : 1 ≤ size) :
    ∀ (ns : List Nat) (idx : Nat) (h : List nodeRank), size ≤ idx →
      h.length = size → (size < idx → SubHeap h 0) →
      ∃ out rest,
        getSubSetLoop target size ns idx h = some out ∧
        out.length = size ∧
        List.Perm (h ++ ns.map fun n => newNodeRank n target) (out ++ rest) ∧
        (size < idx → (hget out 0).rank ≤ (hget h 0).rank) ∧
        (∀ y ∈ rest, (hget out 0).rank ≤ y.rank) ∧
        ((ns = [] ∧ out = h ∧ rest = []) ∨ SubHeap out 0) := by
  intro ns
  induction ns with
  | nil =>
    intro idx h hidx hlen hheap
    exact ⟨h, [], rfl, hlen, by simp, fun _ => Nat.le_refl _, by simp,
      .inl ⟨rfl, rfl, rfl⟩⟩
  | cons nID rest' ih =>
    intro idx h hidx hlen hheap
    have hnlt : ¬ idx < size := by omega
    have hg : ∃ g, (if idx = size then heapInit h else h) = g ∧ g.length = size ∧
        SubHeap g 0 ∧ List.Perm g h ∧ (size < idx → g = h) := by
      by_cases hieq : idx = size
      · exact ⟨heapInit h, if_pos hieq, by rw [heapInit_length, hlen],
          heapInit_subHeap h, heapInit_perm h, fun hc => absurd hieq (by omega)⟩
      · exact ⟨h, if_neg hieq, hlen, hheap (by omega), List.Perm.refl h,
          fun _ => rfl⟩
    obtain ⟨g, hgeq, hglen, hgheap, hgperm, hgid⟩ := hg
    rcases g with _ | ⟨top, t⟩
    · rw [List.length_nil] at hglen
      omega
    have hstep : getSubSetLoop target size (nID :: rest') idx h =
        if (newNodeRank nID target).rank < top.rank then
          getSubSetLoop target size rest' (idx + 1)
            (down ((newNodeRank nID target) :: t) 0)
        else getSubSetLoop target size rest' (idx + 1) (top :: t) := by
      rw [getSubSetLoop, if_neg hnlt, hgeq]
      rfl
    by_cases hrk : (newNodeRank nID target).rank < top.rank
    · -- the new node evicts the current root
      have hheap' : SubHeap (down ((newNodeRank nID target) :: t) 0) 0 := by
        refine down_subHeap _ 0 ?_ ?_
        · exact subHeap_cons_replace top _ t hgheap _ (.inl rfl)
        · exact subHeap_cons_replace top _ t hgheap _ (.inr rfl)
      obtain ⟨out, rest₀, heq₀, hlen₀, hperm₀, hroot₀, hrest₀, hshape₀⟩ :=
        ih (idx + 1) (down ((newNodeRank nID target) :: t) 0) (by omega)
          (by rw [down_length]; simpa using hglen) (fun _ => hheap')
      have hd0 : (hget (down ((newNodeRank nID target) :: t) 0) 0).rank ≤
          top.rank := by
        have hmem : hget (down ((newNodeRank nID target) :: t) 0) 0 ∈
            down ((newNodeRank nID target) :: t) 0 :=
          hget_mem _ 0 (by rw [down_length]; simp)
        have hmem2 : hget (down ((newNodeRank nID target) :: t) 0) 0 ∈
            (newNodeRank nID target) :: t :=
          (down_perm _ 0).mem_iff.1 hmem
        rcases List.mem_cons.1 hmem2 with heqm | hmt
        · rw [heqm]
          exact Nat.le_of_lt hrk
        · have := heap_max hgheap _ (List.mem_cons_of_mem top hmt)
          rwa [hget_cons_zero] at this
      refine ⟨out, top :: rest₀, ?_, hlen₀, ?_, ?_, ?_, ?_⟩
      · rw [hstep, if_pos hrk]
        exact heq₀
      · refine List.Perm.trans (List.Perm.append_right _ hgperm.symm) ?_
        refine List.Perm.trans ?_ List.perm_middle.symm
        refine List.Perm.cons top ?_
        refine List.Perm.trans List.perm_middle ?_
        refine List.Perm.trans ?_ hperm₀
        refine List.Perm.trans ?_
          (List.Perm.append_right _ (down_perm ((newNodeRank nID target) :: t) 0).symm)
        exact List.Perm.refl _
      · intro hlt'
        rw [← hgid hlt', hget_cons_zero]
        exact Nat.le_trans (hroot₀ (by omega)) hd0
      · intro y hy
        rcases List.mem_cons.1 hy with rfl | hy₀
        · exact Nat.le_trans (hroot₀ (by omega)) hd0
        · exact hrest₀ y hy₀
      · refine .inr ?_
        rcases hshape₀ with ⟨_, rfl, _⟩ | hs
        · exact hheap'
        · exact hs
    · -- the new node is discarded
      obtain ⟨out, rest₀, heq₀, hlen₀, hperm₀, hroot₀, hrest₀, hshape₀⟩ :=
        ih (idx + 1) (top :: t) (by omega) hglen (fun _ => hgheap)
      refine ⟨out, (newNodeRank nID target) :: rest₀, ?_, hlen₀, ?_, ?_, ?_, ?_⟩
      · rw [hstep, if_neg hrk]
        exact heq₀
      · refine List.Perm.trans (List.Perm.append_right _ hgperm.symm) ?_
        exact List.Perm.trans List.perm_middle
          (List.Perm.trans (List.Perm.cons _ hperm₀) List.perm_middle.symm)
      · intro hlt'
        rw [← hgid hlt']
        exact hroot₀ (by omega)
      · intro y hy
        rcases List.mem_cons.1 hy with rfl | hy₀
        · have h1 : (hget out 0).rank ≤ (hget (top :: t) 0).rank :=
            hroot₀ (by omega)
          rw [hget_cons_zero] at h1
          exact Nat.le_trans h1 (Nat.le_of_not_lt hrk)
        · exact hrest₀ y hy₀
      · refine .inr ?_
        rcases hshape₀ with ⟨_, rfl, _⟩ | hs
        · exact hgheap
        · exact hs

/-- C10: for every positive `size`, `GetSubSet` returns (for any map iteration
order `ns`) a list of node IDs that, together with some leftover `rest`,
permutes the node set, has length `min size ns.length` (so all IDs when the set
has fewer than `size` nodes), and every returned ID has rank
`|target - ID|` at most the rank of every ID left out — i.e. the `size`
smallest-rank IDs are returned. -/
theorem C10_theorem (ns : List Nat) (size target : Nat) (hsz : 1 ≤ size) :
    ∃ out rest, GetSubSet ns size target = some out ∧
      out.length = min size ns.length ∧
      List.Perm ns (out ++ rest) ∧
      ∀ x ∈ out, ∀ y ∈ rest, rankOf target x ≤ rankOf target y := by
  by_cases hle : ns.length ≤ size
  · refine ⟨ns, [], ?_, ?_, by simp, by simp⟩
    · unfold GetSubSet
      rw [getSubSetLoop_phase1 target size ns 0 [] (by omega)]
      simp [List.map_map, newNodeRank, Function.comp_def]
    · omega
  · have hsplit : ns = ns.take size ++ ns.drop size :=
      (List.take_append_drop size ns).symm
    obtain ⟨out, rest, heq, hlen, hperm, hroot, hrest, hshape⟩ :=
      getSubSetLoop_phase2 target size hsz (ns.drop size) size
        ((ns.take size).map fun n => newNodeRank n target) (Nat.le_refl size)
        (by rw [List.length_map, List.length_take]; omega)
        (fun hc => absurd hc (Nat.lt_irrefl size))
    have hcall : GetSubSet ns size target = some (out.map nodeRank.ID) := by
      unfold GetSubSet
      conv_lhs => rw [hsplit]
      rw [getSubSetLoop_phase1_split target size (ns.take size) (ns.drop size)
        0 [] (by rw [List.length_take]; omega)]
      simp only [List.nil_append]
      rw [heq]
      rfl
    have hmemall : ∀ r ∈ out ++ rest, r.rank = rankOf target r.ID := by
      intro r hr
      have hr2 : r ∈ ((ns.take size).map fun n => newNodeRank n target) ++
          ((ns.drop size).map fun n => newNodeRank n target) :=
        hperm.mem_iff.2 hr
      rw [← List.map_append] at hr2
      obtain ⟨n, _, rfl⟩ := List.mem_map.1 hr2
      rfl
    refine ⟨out.map nodeRank.ID, rest.map nodeRank.ID, hcall, ?_, ?_, ?_⟩
    · rw [List.length_map, hlen]
      omega
    · have h2 : List.Perm
          (((ns.take size ++ ns.drop size).map fun n => newNodeRank n target).map
            nodeRank.ID) ((out ++ rest).map nodeRank.ID) := by
        rw [List.map_append]
        exact hperm.map nodeRank.ID
      rw [List.take_append_drop, List.map_map] at h2
      simpa [Function.comp_def, newNodeRank, List.map_append] using h2
    · intro x hx y hy
      obtain ⟨rx, hrx, rfl⟩ := List.mem_map.1 hx
      obtain ⟨ry, hry, rfl⟩ := List.mem_map.1 hy
      rw [← hmemall rx (List.mem_append_left _ hrx),
        ← hmemall ry (List.mem_append_right _ hry)]
      rcases hshape with ⟨_, _, rfl⟩ | hs
      · exact absurd hry (List.not_mem_nil ry)
      · exact Nat.le_trans (heap_max hs rx hrx) (hrest ry hry)

/-- Witness: `GetSubSet` on the node set `{10, 3, 7}` with `size = 2` and
target `5` (ranks `5`, `2`, `2`). -/
theorem C10_witness : 1 ≤ 2 ∧
    ∃ out rest, GetSubSet [10, 3, 7] 2 5 = some out ∧
      out.length = min 2 ([10, 3, 7] : List Nat).length ∧
      List.Perm [10, 3, 7] (out ++ rest) ∧
      ∀ x ∈ out, ∀ y ∈ rest, rankOf 5 x ≤ rankOf 5 y :=
  ⟨by decide, C10_theorem [10, 3, 7] 2 5 (by decide)⟩

/-- Counterexample to the claim as stated: with `size = 0` and a nonempty node
set the claim demands the empty subset, but `GetSubSet` hits the Go runtime
panic of `h[0]` on the empty heap (modelled as `none`) instead of returning
any list at all. -/
theorem C10_counterexample :
    GetSubSet [5] 0 0 = none ∧ ∀ out : List Nat, GetSubSet [5] 0 0 ≠ some out := by
  constructor
  · rfl
  · intro out h
    simp [GetSubSet, getSubSetLoop, heapInit, heapInitAux] at h

/-! Delivery-order machinery for the ack-covering invariant: the blocks a run
has emitted, in emission order, and the well-formedness of an input stream. -/

/-- All blocks emitted by the collected delivery sets, in delivery order. -/
def deliveredOf (ds : List (List Block × TotalOrderingMode)) : List Block :=
  (ds.map Prod.fst).join

/-- `dagOrderedAux seen rest` checks that every block of `rest` acks only
hashes among `seen` plus the blocks before it in `rest`. -/
def dagOrderedAux : List Hash → List Block → Bool
  | _, [] => true
  | seen, b :: rest =>
    (b.acks.all fun a => decide (a ∈ seen)) && dagOrderedAux (seen ++ [b.hash]) rest

/-- A stream respects the DAG when every block only acks blocks revealed
strictly before it. -/
def DagOrdered (seq : List Block) : Prop := dagOrderedAux [] seq = true

instance decidableDagOrdered (seq : List Block) : Decidable (DagOrdered seq) :=
  inferInstanceAs (Decidable (dagOrderedAux [] seq = true))

/-- The ack-covering delivery property of a collected run: every ack of every
emitted block was emitted in the same delivery set or an earlier one. -/
def C2Prop (ds : List (List Block × TotalOrderingMode)) : Prop :=
  ∀ i, ∀ hi : i < ds.length, ∀ b ∈ (ds.get ⟨i, hi⟩).1, ∀ a ∈ b.acks,
    a ∈ (deliveredOf (ds.take (i + 1))).map Block.hash

theorem runBlocks_snoc (s : totalOrdering) (pre : List Block) (b : Block) :
    runBlocks s (pre ++ [b]) =
      (((runBlocks s pre).1.processBlock b).1,
        (runBlocks s pre).2 ++ [((runBlocks s pre).1.processBlock b).2]) := by
  simp [runBlocks, List.foldl_append]

theorem deliveredOf_append (ds : List (List Block × TotalOrderingMode))
    (e : List Block × TotalOrderingMode) :
    deliveredOf (ds ++ [e]) = deliveredOf ds ++ e.1 := by
  simp [deliveredOf]

theorem dagOrderedAux_append (pre : List Block) (b : Block) :
    ∀ seen, dagOrderedAux seen (pre ++ [b]) =
      (dagOrderedAux seen pre &&
        b.acks.all fun a => decide (a ∈ seen ++ pre.map Block.hash)) := by
  induction pre with
  | nil =>
    intro seen
    simp [dagOrderedAux]
  | cons c pre ih =>
    intro seen
    simp only [List.cons_append, dagOrderedAux, List.append_eq]
    rw [ih (seen ++ [c.hash])]
    simp [Bool.and_assoc, List.append_assoc]

theorem dagOrdered_snoc {pre : List Block} {b : Block}
    (h : DagOrdered (pre ++ [b])) :
    DagOrdered pre ∧ ∀ a ∈ b.acks, a ∈ pre.map Block.hash := by
  unfold DagOrdered at h
  rw [dagOrderedAux_append, Bool.and_eq_true] at h
  refine ⟨h.1, ?_⟩
  intro a ha
  have := List.all_eq_true.1 h.2 a ha
  simpa using this

theorem dagOrdered_mem_acks (seq : List Block) (h : DagOrdered seq) :
    ∀ blk ∈ seq, ∀ a ∈ blk.acks, a ∈ seq.map Block.hash := by
  induction seq using List.reverseRecOn with
  | nil => intro blk hblk; exact absurd hblk (List.not_mem_nil blk)
  | append_singleton pre b ih =>
    obtain ⟨hpre, hacks⟩ := dagOrdered_snoc h
    intro blk hblk a ha
    rw [List.map_append]
    rcases List.mem_append.1 hblk with hin | hin
    · exact List.mem_append_left _ (ih hpre blk hin a ha)
    · rw [List.mem_singleton.1 hin] at ha
      exact List.mem_append_left _ (hacks a ha)

/-- `getD` through `set` on an option list. -/
theorem getD_set_cases (cs : List (Option Hash)) (i j : Nat) (x : Option Hash) :
    (cs.set i x).getD j none =
      if i = j ∧ i < cs.length then x else cs.getD j none := by
  by_cases hij : i = j
  · subst hij
    by_cases hlt : i < cs.length
    · rw [if_pos ⟨rfl, hlt⟩, List.getD_eq_getElem?_getD,
        List.getElem?_set_self hlt]
      rfl
    · rw [if_neg (by omega), List.getD_eq_getElem?_getD,
        List.getD_eq_getElem?_getD]
      have h1 : (cs.set i x)[i]? = none :=
        List.getElem?_eq_none (by simpa using Nat.le_of_not_lt hlt)
      have h2 : cs[i]? = none := List.getElem?_eq_none (Nat.le_of_not_lt hlt)
      rw [h1, h2]
  · rw [if_neg (by omega), List.getD_eq_getElem?_getD,
      List.getD_eq_getElem?_getD, List.getElem?_set_ne hij]

/-- `getD` through a `map` that fixes `none`. -/
theorem getD_map_clear (g : Option Hash → Option Hash) (hg : g none = none)
    (cs : List (Option Hash)) (i : Nat) :
    (cs.map g).getD i none = g (cs.getD i none) := by
  rw [List.getD_eq_getElem?_getD, List.getD_eq_getElem?_getD, List.getElem?_map]
  cases cs[i]? with
  | none => simpa using hg.symm
  | some v => rfl

theorem C2Prop.snoc {ds : List (List Block × TotalOrderingMode)}
    {e : List Block × TotalOrderingMode} (h1 : C2Prop ds)
    (h2 : ∀ b ∈ e.1, ∀ a ∈ b.acks, a ∈ (deliveredOf ds).map Block.hash) :
    C2Prop (ds ++ [e]) := by
  intro i hi b hb a ha
  have hlen : i < ds.length + 1 := by simpa using hi
  by_cases hilt : i < ds.length
  · have hget : (ds ++ [e]).get ⟨i, hi⟩ = ds.get ⟨i, hilt⟩ := by
      rw [List.get_eq_getElem, List.get_eq_getElem, List.getElem_append_left]
    rw [hget] at hb
    rw [List.take_append_of_le_length (by omega)]
    exact h1 i hilt b hb a ha
  · have hieq : i = ds.length := by omega
    have hget : (ds ++ [e]).get ⟨i, hi⟩ = e := by
      rw [List.get_eq_getElem]
      subst hieq
      rw [List.getElem_append_right (Nat.le_refl ds.length)]
      simp
    rw [hget] at hb
    have htake : (ds ++ [e]).take (i + 1) = ds ++ [e] := by
      rw [List.take_of_length_le (by simp; omega)]
    rw [htake, deliveredOf_append, List.map_append]
    exact List.mem_append_left _ (h2 b hb a ha)

/-- Every hash of a generated delivery set is a tracked candidate. -/
theorem generateDeliverSet_mem (s : totalOrdering) :
    ∀ h ∈ s.generateDeliverSet.1, ∃ j, s.candidates.getD j none = some h := by
  intro h hh
  unfold totalOrdering.generateDeliverSet at hh
  have hprec : h ∈ s.precedings := by
    dsimp only at hh
    split at hh
    · exact absurd hh (List.not_mem_nil h)
    · split at hh
      · exact hh
      · split at hh
        · exact hh
        · exact absurd hh (List.not_mem_nil h)
  have hcand : h ∈ s.candidateHashes := List.mem_of_mem_filter hprec
  obtain ⟨j, _, hj⟩ := List.mem_filterMap.1 hcand
  exact ⟨j, hj⟩

/-- Structural case analysis of `processBlock`: the post-arrival state appends
the block to `pendings` and possibly promotes it to candidate (only under
`isAckOnlyPrecedings`); the call then either delivers nothing or emits the
generated set sorted by hash and purges it via `output`. -/
theorem processBlock_spec (s : totalOrdering) (b : Block) :
    ∃ s1 : totalOrdering,
      s1.pendings = s.pendings ++ [b] ∧
      s1.acked = (reachedFrom s.acked b.acks).foldl
        (fun m a => if a = b.hash then m else ackedInsert m a b.hash) s.acked ∧
      (s1.candidates = s.candidates ∨
        (s1.candidates = s.candidates.set b.position.chainID (some b.hash) ∧
          isAckOnlyPrecedings (s.pendings ++ [b]) b = true)) ∧
      (s.processBlock b = (s1, [], .normal) ∨
        s.processBlock b = (s1.output s1.generateDeliverSet.1,
          sortByHash (s1.pendings.filter fun blk =>
            decide (blk.hash ∈ s1.generateDeliverSet.1)),
          s1.generateDeliverSet.2)) := by
  refine ⟨{ s with
      pendings := s.pendings ++ [b],
      acked := (reachedFrom s.acked b.acks).foldl
        (fun m a => if a = b.hash then m else ackedInsert m a b.hash) s.acked,
      candidates :=
        if b.position.chainID < s.numChains ∧
            s.candidates.getD b.position.chainID none = none ∧
            isAckOnlyPrecedings (s.pendings ++ [b]) b = true then
          s.candidates.set b.position.chainID (some b.hash)
        else s.candidates }, rfl, rfl, ?_, ?_⟩
  · by_cases hcond : b.position.chainID < s.numChains ∧
        s.candidates.getD b.position.chainID none = none ∧
        isAckOnlyPrecedings (s.pendings ++ [b]) b = true
    · exact .inr ⟨by rw [if_pos hcond], hcond.2.2⟩
    · exact .inl (by rw [if_neg hcond])
  · unfold totalOrdering.processBlock
    dsimp only
    split <;> split
    · exact .inl rfl
    · exact .inr rfl
    · exact .inl rfl
    · exact .inr rfl

/-- Invariant preservation across the arrival stage of `processBlock`: the
working set stays a subsequence of the stream, non-pending processed blocks
are already delivered, and every tracked candidate is a pending block all of
whose acks are delivered. -/
theorem stage_inv_arrive (seq : List Block) (b : Block) (s : totalOrdering)
    (DH : List Hash) (cand' : List (Option Hash))
    (hsub : s.pendings.Sublist seq)
    (hA : ∀ blk ∈ seq, blk ∈ s.pendings ∨ blk.hash ∈ DH)
    (hD : ∀ j h, s.candidates.getD j none = some h →
      h ∈ s.pendings.map Block.hash)
    (hC : ∀ j h, s.candidates.getD j none = some h →
      ∀ blk ∈ s.pendings, blk.hash = h → ∀ a ∈ blk.acks, a ∈ DH)
    (hnd : ((seq ++ [b]).map Block.hash).Nodup)
    (hacks : ∀ a ∈ b.acks, a ∈ seq.map Block.hash)
    (hcand' : cand' = s.candidates ∨
      (cand' = s.candidates.set b.position.chainID (some b.hash) ∧
        isAckOnlyPrecedings (s.pendings ++ [b]) b = true)) :
    (s.pendings ++ [b]).Sublist (seq ++ [b]) ∧
    (∀ blk ∈ seq ++ [b], blk ∈ s.pendings ++ [b] ∨ blk.hash ∈ DH) ∧
    (∀ j h, cand'.getD j none = some h →
      h ∈ (s.pendings ++ [b]).map Block.hash) ∧
    (∀ j h, cand'.getD j none = some h →
      ∀ blk ∈ s.pendings ++ [b], blk.hash = h → ∀ a ∈ blk.acks, a ∈ DH) := by
  have hbfresh : b.hash ∉ seq.map Block.hash := by
    rw [List.map_append] at hnd
    rcases List.nodup_append.1 hnd with ⟨_, _, hdisj⟩
    intro hmem
    exact hdisj hmem (by simp)
  have hsub' : (s.pendings ++ [b]).Sublist (seq ++ [b]) :=
    hsub.append (List.Sublist.refl [b])
  have hA' : ∀ blk ∈ seq ++ [b], blk ∈ s.pendings ++ [b] ∨ blk.hash ∈ DH := by
    intro blk hblk
    rcases List.mem_append.1 hblk with hin | hin
    · rcases hA blk hin with hp | hd
      · exact .inl (List.mem_append_left _ hp)
      · exact .inr hd
    · rw [List.mem_singleton.1 hin]
      exact .inl (List.mem_append_right _ (by simp))
  have hpendhash : ∀ h, h ∈ s.pendings.map Block.hash →
      h ∈ seq.map Block.hash := fun h hm =>
    (hsub.map Block.hash).subset hm
  have holdcase : ∀ j h, s.candidates.getD j none = some h →
      ∀ blk ∈ s.pendings ++ [b], blk.hash = h → ∀ a ∈ blk.acks, a ∈ DH := by
    intro j h hold blk hblk hbh a ha
    rcases List.mem_append.1 hblk with hin | hin
    · exact hC j h hold blk hin hbh a ha
    · rw [List.mem_singleton.1 hin] at hbh
      have hh : h ∈ seq.map Block.hash := hpendhash h (hD j h hold)
      exact absurd (show b.hash ∈ seq.map Block.hash by rw [hbh]; exact hh) hbfresh
  refine ⟨hsub', hA', ?_, ?_⟩
  · intro j h hgd
    rcases hcand' with rfl | ⟨hc, _⟩
    · rw [List.map_append]
      exact List.mem_append_left _ (hD j h hgd)
    · rw [hc, getD_set_cases] at hgd
      by_cases hcase : b.position.chainID = j ∧ b.position.chainID < s.candidates.length
      · rw [if_pos hcase] at hgd
        injection hgd with hgd
        rw [← hgd, List.map_append]
        exact List.mem_append_right _ (by simp)
      · rw [if_neg hcase] at hgd
        rw [List.map_append]
        exact List.mem_append_left _ (hD j h hgd)
  · intro j h hgd blk hblk hbh a ha
    rcases hcand' with rfl | ⟨hc, hao⟩
    · exact holdcase j h hgd blk hblk hbh a ha
    · rw [hc, getD_set_cases] at hgd
      by_cases hcase : b.position.chainID = j ∧ b.position.chainID < s.candidates.length
      · rw [if_pos hcase] at hgd
        injection hgd with hgd
        rcases List.mem_append.1 hblk with hin | hin
        · have hbb : b.hash ∈ seq.map Block.hash := by
            have hbhb : blk.hash = b.hash := hbh.trans hgd.symm
            rw [← hbhb]
            exact hpendhash blk.hash (List.mem_map_of_mem Block.hash hin)
          exact absurd hbb hbfresh
        · rw [List.mem_singleton.1 hin] at ha
          unfold isAckOnlyPrecedings at hao
          simp only [List.all_eq_true, bne_iff_ne] at hao
          obtain ⟨blka, hblka, hhba⟩ := List.mem_map.1 (hacks a ha)
          rcases hA' blka (List.mem_append_left _ hblka) with hp | hd
          · exact absurd hhba (hao a ha blka hp)
          · rw [← hhba]
            exact hd
      · rw [if_neg hcase] at hgd
        exact holdcase j h hgd blk hblk hbh a ha

/-- One `promoteIfFront` step preserves the candidate invariants, provided
every working block passing `isAckOnlyPrecedings` has only delivered acks. -/
theorem promoteIfFront_inv (p : List Block) (n : Nat) (DH : List Hash)
    (hnd : (p.map Block.hash).Nodup)
    (hIack : ∀ f ∈ p, isAckOnlyPrecedings p f = true → ∀ a ∈ f.acks, a ∈ DH)
    (cs : List (Option Hash)) (i : Nat)
    (hD : ∀ j h, cs.getD j none = some h → h ∈ p.map Block.hash)
    (hC : ∀ j h, cs.getD j none = some h →
      ∀ blk ∈ p, blk.hash = h → ∀ a ∈ blk.acks, a ∈ DH) :
    (∀ j h, (promoteIfFront p n cs i).getD j none = some h →
      h ∈ p.map Block.hash) ∧
    (∀ j h, (promoteIfFront p n cs i).getD j none = some h →
      ∀ blk ∈ p, blk.hash = h → ∀ a ∈ blk.acks, a ∈ DH) := by
  unfold promoteIfFront
  cases hdi : cs.getD i none with
  | some c => exact ⟨hD, hC⟩
  | none =>
    cases hfl : (p.filter fun b => b.position.chainID == i).head? with
    | none => exact ⟨hD, hC⟩
    | some f =>
      have hff : f ∈ p.filter fun b => b.position.chainID == i :=
        List.mem_of_mem_head? hfl
      have hfp : f ∈ p := List.mem_of_mem_filter hff
      dsimp only
      by_cases hao : isAckOnlyPrecedings p f = true
      · rw [if_pos hao]
        constructor
        · intro j h hgd
          rw [getD_set_cases] at hgd
          by_cases hcase : i = j ∧ i < cs.length
          · rw [if_pos hcase] at hgd
            injection hgd with hgd
            rw [← hgd]
            exact List.mem_map_of_mem Block.hash hfp
          · rw [if_neg hcase] at hgd
            exact hD j h hgd
        · intro j h hgd blk hblk hbh a ha
          rw [getD_set_cases] at hgd
          by_cases hcase : i = j ∧ i < cs.length
          · rw [if_pos hcase] at hgd
            injection hgd with hgd
            have hbf : blk = f :=
              List.inj_on_of_nodup_map hnd hblk hfp (by rw [hbh, ← hgd])
            rw [hbf] at ha
            exact hIack f hfp hao a ha
          · rw [if_neg hcase] at hgd
            exact hC j h hgd blk hblk hbh a ha
      · rw [if_neg hao]
        exact ⟨hD, hC⟩

/-- The promotion pass over all chains preserves the candidate invariants. -/
theorem promoteFold_inv (p : List Block) (n : Nat) (DH : List Hash)
    (hnd : (p.map Block.hash).Nodup)
    (hIack : ∀ f ∈ p, isAckOnlyPrecedings p f = true → ∀ a ∈ f.acks, a ∈ DH) :
    ∀ (is : List Nat) (cs : List (Option Hash)),
      (∀ j h, cs.getD j none = some h → h ∈ p.map Block.hash) →
      (∀ j h, cs.getD j none = some h →
        ∀ blk ∈ p, blk.hash = h → ∀ a ∈ blk.acks, a ∈ DH) →
      (∀ j h, (is.foldl (promoteIfFront p n) cs).getD j none = some h →
        h ∈ p.map Block.hash) ∧
      (∀ j h, (is.foldl (promoteIfFront p n) cs).getD j none = some h →
        ∀ blk ∈ p, blk.hash = h → ∀ a ∈ blk.acks, a ∈ DH) := by
  intro is
  induction is with
  | nil => exact fun cs hD hC => ⟨hD, hC⟩
  | cons i rest ih =>
    intro cs hD hC
    rw [List.foldl_cons]
    obtain ⟨hD', hC'⟩ := promoteIfFront_inv p n DH hnd hIack cs i hD hC
    exact ih _ hD' hC'

theorem output_pendings (s : totalOrdering) (dh : List Hash) :
    (s.output dh).pendings = s.pendings.filter fun b => decide (b.hash ∉ dh) :=
  rfl

theorem output_candidates (s : totalOrdering) (dh : List Hash) :
    (s.output dh).candidates = (List.range s.numChains).foldl
      (promoteIfFront (s.pendings.filter fun b => decide (b.hash ∉ dh)) s.numChains)
      (s.candidates.map fun c =>
        match c with
        | some h => if h ∈ dh then none else some h
        | none => none) :=
  rfl

/-- Invariant preservation across the delivery stage (`output`): after purging
the delivered hashes `dh` the invariants hold with the delivered-hash pool
extended by the hashes of the purged pending blocks. -/
theorem stage_inv_output (seq : List Block) (s1 : totalOrdering) (DH dh : List Hash)
    (hsub : s1.pendings.Sublist seq)
    (hnd : (seq.map Block.hash).Nodup)
    (hA : ∀ blk ∈ seq, blk ∈ s1.pendings ∨ blk.hash ∈ DH)
    (hD : ∀ j h, s1.candidates.getD j none = some h →
      h ∈ s1.pendings.map Block.hash)
    (hC : ∀ j h, s1.candidates.getD j none = some h →
      ∀ blk ∈ s1.pendings, blk.hash = h → ∀ a ∈ blk.acks, a ∈ DH)
    (hacksall : ∀ blk ∈ seq, ∀ a ∈ blk.acks, a ∈ seq.map Block.hash) :
    (s1.output dh).pendings.Sublist seq ∧
    (∀ blk ∈ seq, blk ∈ (s1.output dh).pendings ∨ blk.hash ∈
      DH ++ (s1.pendings.filter fun blk => decide (blk.hash ∈ dh)).map Block.hash) ∧
    (∀ j h, (s1.output dh).candidates.getD j none = some h →
      h ∈ (s1.output dh).pendings.map Block.hash) ∧
    (∀ j h, (s1.output dh).candidates.getD j none = some h →
      ∀ blk ∈ (s1.output dh).pendings, blk.hash = h → ∀ a ∈ blk.acks, a ∈
        DH ++ (s1.pendings.filter fun blk => decide (blk.hash ∈ dh)).map Block.hash) := by
  rw [output_pendings, output_candidates]
  have hsub2 : (s1.pendings.filter fun b => decide (b.hash ∉ dh)).Sublist seq :=
    (List.filter_sublist _).trans hsub
  have hnd2 : ((s1.pendings.filter fun b => decide (b.hash ∉ dh)).map Block.hash).Nodup :=
    hnd.sublist (hsub2.map Block.hash)
  have hA2 : ∀ blk ∈ seq,
      blk ∈ (s1.pendings.filter fun b => decide (b.hash ∉ dh)) ∨ blk.hash ∈
        DH ++ (s1.pendings.filter fun blk => decide (blk.hash ∈ dh)).map Block.hash := by
    intro blk hblk
    rcases hA blk hblk with hp | hd
    · by_cases hdh : blk.hash ∈ dh
      · refine .inr (List.mem_append_right _ ?_)
        exact List.mem_map_of_mem _ (List.mem_filter.2 ⟨hp, by simpa using hdh⟩)
      · exact .inl (List.mem_filter.2 ⟨hp, by simpa using hdh⟩)
    · exact .inr (List.mem_append_left _ hd)
  have hD0 : ∀ j h, ((s1.candidates.map fun c =>
      match c with
      | some h => if h ∈ dh then none else some h
      | none => none).getD j none) = some h →
      h ∈ ((s1.pendings.filter fun b => decide (b.hash ∉ dh)).map Block.hash) := by
    intro j h hgd
    rw [getD_map_clear _ rfl] at hgd
    cases hold : s1.candidates.getD j none with
    | none => rw [hold] at hgd; cases hgd
    | some h0 =>
      rw [hold] at hgd
      dsimp only at hgd
      by_cases hmem : h0 ∈ dh
      · rw [if_pos hmem] at hgd
        cases hgd
      · rw [if_neg hmem] at hgd
        injection hgd with hgd
        obtain ⟨blk0, hblk0, hh0⟩ := List.mem_map.1 (hD j h0 hold)
        refine List.mem_map.2 ⟨blk0, List.mem_filter.2 ⟨hblk0, ?_⟩, by rw [hh0, hgd]⟩
        rw [hh0]
        simpa using hgd ▸ hmem
  have hC0 : ∀ j h, ((s1.candidates.map fun c =>
      match c with
      | some h => if h ∈ dh then none else some h
      | none => none).getD j none) = some h →
      ∀ blk ∈ (s1.pendings.filter fun b => decide (b.hash ∉ dh)), blk.hash = h →
      ∀ a ∈ blk.acks, a ∈
        DH ++ (s1.pendings.filter fun blk => decide (blk.hash ∈ dh)).map Block.hash := by
    intro j h hgd blk hblk hbh a ha
    rw [getD_map_clear _ rfl] at hgd
    cases hold : s1.candidates.getD j none with
    | none => rw [hold] at hgd; cases hgd
    | some h0 =>
      rw [hold] at hgd
      dsimp only at hgd
      by_cases hmem : h0 ∈ dh
      · rw [if_pos hmem] at hgd
        cases hgd
      · rw [if_neg hmem] at hgd
        injection hgd with hgd
        exact List.mem_append_left _
          (hC j h0 hold blk (List.mem_of_mem_filter hblk) (hbh.trans hgd.symm) a ha)
  have hIack : ∀ f ∈ (s1.pendings.filter fun b => decide (b.hash ∉ dh)),
      isAckOnlyPrecedings (s1.pendings.filter fun b => decide (b.hash ∉ dh)) f = true →
      ∀ a ∈ f.acks, a ∈
        DH ++ (s1.pendings.filter fun blk => decide (blk.hash ∈ dh)).map Block.hash := by
    intro f hf hao a ha
    unfold isAckOnlyPrecedings at hao
    simp only [List.all_eq_true, bne_iff_ne] at hao
    obtain ⟨blka, hblka, hhba⟩ := List.mem_map.1 (hacksall f (hsub2.subset hf) a ha)
    rcases hA2 blka hblka with hp | hd
    · exact absurd hhba (hao a ha blka hp)
    · rw [← hhba]
      exact hd
  obtain ⟨hDp, hCp⟩ := promoteFold_inv
    (s1.pendings.filter fun b => decide (b.hash ∉ dh)) s1.numChains
    (DH ++ (s1.pendings.filter fun blk => decide (blk.hash ∈ dh)).map Block.hash)
    hnd2 hIack (List.range s1.numChains) _ hD0 hC0
  exact ⟨hsub2, hA2, hDp, hCp⟩

/-- The global run invariant over a DAG-ordered stream with distinct hashes:
the working set is a subsequence of the stream, every processed block is
pending or delivered, every tracked candidate is a pending block all of whose
acks are delivered, and the ack-covering delivery property holds for the
collected deliveries. -/
theorem engineInv (k phi numChains : Nat) (seq : List Block)
    (hdag : DagOrdered seq) (hnd : (seq.map Block.hash).Nodup) :
    (runBlocks (newTotalOrdering k phi numChains) seq).1.pendings.Sublist seq ∧
    (∀ blk ∈ seq,
      blk ∈ (runBlocks (newTotalOrdering k phi numChains) seq).1.pendings ∨
      blk.hash ∈ (deliveredOf
        (runBlocks (newTotalOrdering k phi numChains) seq).2).map Block.hash) ∧
    (∀ j h, (runBlocks (newTotalOrdering k phi numChains)
        seq).1.candidates.getD j none = some h →
      h ∈ (runBlocks (newTotalOrdering k phi numChains)
        seq).1.pendings.map Block.hash) ∧
    (∀ j h, (runBlocks (newTotalOrdering k phi numChains)
        seq).1.candidates.getD j none = some h →
      ∀ blk ∈ (runBlocks (newTotalOrdering k phi numChains) seq).1.pendings,
        blk.hash = h → ∀ a ∈ blk.acks,
        a ∈ (deliveredOf
          (runBlocks (newTotalOrdering k phi numChains) seq).2).map Block.hash) ∧
    C2Prop (runBlocks (newTotalOrdering k phi numChains) seq).2 := by
  induction seq using List.reverseRecOn with
  | nil =>
    have hrep : ∀ j,
        ((List.replicate numChains (none : Option Hash)).getD j none) = none := by
      intro j
      rw [List.getD_eq_getElem?_getD, List.getElem?_replicate]
      split <;> rfl
    refine ⟨List.nil_sublist _, ?_, ?_, ?_, ?_⟩
    · intro blk hblk
      exact absurd hblk (List.not_mem_nil blk)
    · intro j h hgd
      rw [show (runBlocks (newTotalOrdering k phi numChains) []).1.candidates =
        List.replicate numChains none from rfl, hrep j] at hgd
      cases hgd
    · intro j h hgd
      rw [show (runBlocks (newTotalOrdering k phi numChains) []).1.candidates =
        List.replicate numChains none from rfl, hrep j] at hgd
      cases hgd
    · intro i hi
      exact absurd hi (by simp [runBlocks])
  | append_singleton pre b ih =>
    obtain ⟨hdagpre, hacks⟩ := dagOrdered_snoc hdag
    have hndpre : (pre.map Block.hash).Nodup := by
      rw [List.map_append] at hnd
      exact (List.nodup_append.1 hnd).1
    obtain ⟨ihsub, ihA, ihD, ihC, ihC2⟩ := ih hdagpre hndpre
    obtain ⟨s1, hp, _, hcands, hres⟩ :=
      processBlock_spec (runBlocks (newTotalOrdering k phi numChains) pre).1 b
    obtain ⟨asub, aA, aD, aC⟩ := stage_inv_arrive pre b
      (runBlocks (newTotalOrdering k phi numChains) pre).1
      ((deliveredOf (runBlocks (newTotalOrdering k phi numChains) pre).2).map
        Block.hash)
      s1.candidates ihsub ihA ihD ihC hnd hacks hcands
    rw [← hp] at asub aA aD aC
    rw [runBlocks_snoc]
    rcases hres with heq | heq
    · rw [heq]
      dsimp only
      have hDel : deliveredOf
          ((runBlocks (newTotalOrdering k phi numChains) pre).2 ++
            [(([] : List Block), TotalOrderingMode.normal)]) =
          deliveredOf (runBlocks (newTotalOrdering k phi numChains) pre).2 := by
        rw [deliveredOf_append]
        simp
      rw [hDel]
      exact ⟨asub, aA, aD, aC,
        C2Prop.snoc ihC2 (fun blk hblk => absurd hblk (List.not_mem_nil blk))⟩
    · rw [heq]
      dsimp only
      have hbridge : ∀ a : Hash,
          a ∈ (deliveredOf
            ((runBlocks (newTotalOrdering k phi numChains) pre).2 ++
              [(sortByHash (s1.pendings.filter fun blk =>
                  decide (blk.hash ∈ s1.generateDeliverSet.1)),
                s1.generateDeliverSet.2)])).map Block.hash ↔
          a ∈ (deliveredOf
              (runBlocks (newTotalOrdering k phi numChains) pre).2).map Block.hash ++
            (s1.pendings.filter fun blk =>
              decide (blk.hash ∈ s1.generateDeliverSet.1)).map Block.hash := by
        intro a
        rw [deliveredOf_append, List.map_append, List.mem_append, List.mem_append]
        exact or_congr Iff.rfl (sortByHash_hashes_perm _).mem_iff
      obtain ⟨osub, oA, oD, oC⟩ := stage_inv_output (pre ++ [b]) s1
        ((deliveredOf (runBlocks (newTotalOrdering k phi numChains) pre).2).map
          Block.hash)
        s1.generateDeliverSet.1 asub hnd aA aD aC
        (dagOrdered_mem_acks (pre ++ [b]) hdag)
      refine ⟨osub, ?_, oD, ?_, ?_⟩
      · intro blk hblk
        rcases oA blk hblk with h1 | h2
        · exact .inl h1
        · exact .inr ((hbridge blk.hash).mpr h2)
      · intro j h hgd blk hblk hbh a ha
        exact (hbridge a).mpr (oC j h hgd blk hblk hbh a ha)
      · refine C2Prop.snoc ihC2 ?_
        intro blk hblk a ha
        have hblk2 : blk ∈ s1.pendings.filter fun blk =>
            decide (blk.hash ∈ s1.generateDeliverSet.1) :=
          (List.perm_insertionSort _ _).subset hblk
        have hpend : blk ∈ s1.pendings := List.mem_of_mem_filter hblk2
        have hhash : blk.hash ∈ s1.generateDeliverSet.1 := by
          have := List.of_mem_filter hblk2
          simpa using this
        obtain ⟨j, hj⟩ := generateDeliverSet_mem s1 blk.hash hhash
        exact aC j blk.hash hj blk hpend rfl a ha

/-- C2: over any DAG-ordered stream of blocks with pairwise distinct hashes,
every block emitted by `processBlock` in some delivery set acks only blocks
emitted in the same or a strictly earlier delivery set (never a later one and
never an undelivered one). -/
theorem C2_theorem (k phi numChains : Nat) (seq : List Block)
    (hdag : DagOrdered seq) (hnd : (seq.map Block.hash).Nodup) :
    C2Prop (runBlocks (newTotalOrdering k phi numChains) seq).2 :=
  (engineInv k phi numChains seq hdag hnd).2.2.2.2

/-- Witness: the `TestBasicCaseForK2` scenario (k = 2, phi = 3, 5 chains),
whose run delivers three nonempty sets. -/
theorem C2_witness :
    DagOrdered basicK2Seq ∧ (basicK2Seq.map Block.hash).Nodup ∧
      C2Prop (runBlocks (newTotalOrdering 2 3 5) basicK2Seq).2 :=
  ⟨by decide, by decide, C2_theorem 2 3 5 basicK2Seq (by decide) (by decide)⟩

/-! The transitive ack-closure and the characterization of the `acked` map. -/

/-- A direct ack edge of the processed DAG: some processed block of hash `x`
acks `y`. -/
def AckEdge (seq : List Block) (x y : Hash) : Prop :=
  ∃ blk ∈ seq, blk.hash = x ∧ y ∈ blk.acks

/-- The transitive (irreflexive) ack-closure over the processed blocks. -/
inductive Reaches (seq : List Block) : Hash → Hash → Prop where
  | direct {x y : Hash} : AckEdge seq x y → Reaches seq x y
  | step {x y z : Hash} : AckEdge seq x y → Reaches seq y z → Reaches seq x z

/-- The linear chain `A ← B ← C` of `TestBlockRelation`, one chain of a
5-chain engine: heights 0, 1, 2, each block acking its parent. -/
def chainSeq : List Block :=
  [mkBlock 300 0 0 [], mkBlock 301 0 1 [300], mkBlock 302 0 2 [301]]

theorem reaches_mono {seq seq' : List Block}
    (hsub : ∀ blk ∈ seq, blk ∈ seq') {x y : Hash} (h : Reaches seq x y) :
    Reaches seq' x y := by
  induction h with
  | direct he =>
    obtain ⟨blk, hblk, hx, hy⟩ := he
    exact .direct ⟨blk, hsub blk hblk, hx, hy⟩
  | step he _ ih =>
    obtain ⟨blk, hblk, hx, hy⟩ := he
    exact .step ⟨blk, hsub blk hblk, hx, hy⟩ ih

/-- `ackedGet` on a cons resolves against the head entry first. -/
theorem ackedGet_cons (e : Hash × List Hash) (rest : List (Hash × List Hash))
    (h : Hash) :
    ackedGet (e :: rest) h = if e.1 = h then e.2 else ackedGet rest h := by
  by_cases he : e.1 = h
  · rw [if_pos he]
    unfold ackedGet
    rw [List.find?_cons_of_pos _ (by simp [he])]
    rfl
  · rw [if_neg he]
    unfold ackedGet
    rw [List.find?_cons_of_neg _ (by simp [he])]

/-- Inserting into `acked` rewrites exactly the addressed entry. -/
theorem ackedGet_insert (m : List (Hash × List Hash)) (a x h : Hash) :
    ackedGet (ackedInsert m a x) h =
      if h = a then
        (if x ∈ ackedGet m a then ackedGet m a else ackedGet m a ++ [x])
      else ackedGet m h := by
  induction m with
  | nil =>
    rw [ackedInsert]
    simp only [ackedGet_cons]
    by_cases hha : h = a
    · simp [ackedGet, hha]
    · simp [ackedGet, hha, Ne.symm hha]
  | cons e rest ih =>
    by_cases hea : e.1 = a
    · subst hea
      rw [ackedInsert, if_pos rfl]
      by_cases hx : x ∈ e.2 <;> by_cases hhe : e.1 = h
      · simp [ackedGet_cons, hx, hhe]
      · simp [ackedGet_cons, hx, hhe, Ne.symm hhe]
      · simp [ackedGet_cons, hx, hhe]
      · simp [ackedGet_cons, hx, hhe, Ne.symm hhe]
    · rw [ackedInsert, if_neg hea]
      simp only [ackedGet_cons]
      by_cases hhe : e.1 = h
      · rw [if_pos hhe, if_neg (show ¬ h = a from fun hc => hea (hhe.trans hc)),
          if_pos hhe]
      · rw [if_neg hhe, ih, if_neg hea, if_neg hhe]

/-- Keys after an insert: unchanged when the key exists, appended otherwise. -/
theorem ackedInsert_keys (m : List (Hash × List Hash)) (a x : Hash) :
    (ackedInsert m a x).map Prod.fst =
      if a ∈ m.map Prod.fst then m.map Prod.fst else m.map Prod.fst ++ [a] := by
  induction m with
  | nil => simp [ackedInsert]
  | cons e rest ih =>
    by_cases hea : e.1 = a
    · rw [ackedInsert, if_pos hea]
      by_cases hx : x ∈ e.2
      · rw [if_pos hx]
        simp [hea]
      · rw [if_neg hx]
        simp [hea]
    · rw [ackedInsert, if_neg hea]
      simp only [List.map_cons, ih]
      by_cases hmem : a ∈ rest.map Prod.fst
      · rw [if_pos hmem, if_pos (List.mem_cons_of_mem _ hmem)]
      · rw [if_neg hmem, if_neg (by simp [hmem, Ne.symm hea]), List.cons_append]

/-- Keys stay duplicate-free under insert. -/
theorem ackedInsert_keys_nodup (m : List (Hash × List Hash)) (a x : Hash)
    (hk : (m.map Prod.fst).Nodup) : ((ackedInsert m a x).map Prod.fst).Nodup := by
  rw [ackedInsert_keys]
  by_cases hmem : a ∈ m.map Prod.fst
  · rw [if_pos hmem]
    exact hk
  · rw [if_neg hmem]
    refine List.nodup_append.2 ⟨hk, List.nodup_singleton a, ?_⟩
    intro y hy hy2
    rw [List.mem_singleton.1 hy2] at hy
    exact hmem hy

/-- Keys stay duplicate-free across the whole ack-registration fold. -/
theorem foldl_insert_keys_nodup (bh : Hash) (reached : List Hash) :
    ∀ m : List (Hash × List Hash), (m.map Prod.fst).Nodup →
      ((reached.foldl (fun m a => if a = bh then m else ackedInsert m a bh)
        m).map Prod.fst).Nodup := by
  induction reached with
  | nil => exact fun m hk => hk
  | cons a rest ih =>
    intro m hk
    rw [List.foldl_cons]
    refine ih _ ?_
    by_cases hab : a = bh
    · rw [if_pos hab]
      exact hk
    · rw [if_neg hab]
      exact ackedInsert_keys_nodup m a bh hk

/-- With duplicate-free keys, membership of an entry determines `ackedGet`. -/
theorem ackedGet_of_mem (m : List (Hash × List Hash))
    (hk : (m.map Prod.fst).Nodup) (e : Hash × List Hash) (he : e ∈ m) :
    ackedGet m e.1 = e.2 := by
  induction m with
  | nil => exact absurd he (List.not_mem_nil e)
  | cons f rest ih =>
    rcases List.mem_cons.1 he with rfl | hin
    · rw [ackedGet_cons, if_pos rfl]
    · rw [ackedGet_cons]
      have hf : f.1 ≠ e.1 := by
        intro hc
        have hm : f.1 ∈ rest.map Prod.fst := by
          rw [hc]
          exact List.mem_map_of_mem Prod.fst hin
        exact (List.nodup_cons.1 hk).1 hm
      rw [if_neg hf]
      exact ih (List.nodup_cons.1 hk).2 hin

/-- Each member of an `acked` entry comes from an actual entry of the map. -/
theorem ackedGet_mem_entry (m : List (Hash × List Hash)) (h x : Hash)
    (hx : x ∈ ackedGet m h) : ∃ e ∈ m, e.1 = h ∧ x ∈ e.2 := by
  induction m with
  | nil => simp [ackedGet] at hx
  | cons f rest ih =>
    rw [ackedGet_cons] at hx
    by_cases hf : f.1 = h
    · rw [if_pos hf] at hx
      exact ⟨f, List.mem_cons_self f rest, hf, hx⟩
    · rw [if_neg hf] at hx
      obtain ⟨e, he, h1, h2⟩ := ih hx
      exact ⟨e, List.mem_cons_of_mem f he, h1, h2⟩

/-- The members visible through the whole ack-registration fold: the old ones
plus the registering block at every reached key other than itself. -/
theorem ackedGet_foldl_insert (bh : Hash) (reached : List Hash) :
    ∀ (m : List (Hash × List Hash)) (h x : Hash),
      x ∈ ackedGet (reached.foldl
        (fun m a => if a = bh then m else ackedInsert m a bh) m) h ↔
      (x ∈ ackedGet m h ∨ (x = bh ∧ h ∈ reached ∧ h ≠ bh)) := by
  induction reached with
  | nil =>
    intro m h x
    simp
  | cons a rest ih =>
    intro m h x
    rw [List.foldl_cons, ih]
    by_cases hab : a = bh
    · rw [if_pos hab]
      constructor
      · rintro (hx | ⟨h1, h2, h3⟩)
        · exact .inl hx
        · exact .inr ⟨h1, List.mem_cons_of_mem a h2, h3⟩
      · rintro (hx | ⟨h1, h2, h3⟩)
        · exact .inl hx
        · rcases List.mem_cons.1 h2 with heq | h2'
          · exact absurd (heq.trans hab) h3
          · exact .inr ⟨h1, h2', h3⟩
    · rw [if_neg hab, ackedGet_insert]
      by_cases hha : h = a
      · subst hha
        by_cases hbh : bh ∈ ackedGet m h
        · rw [if_pos rfl, if_pos hbh]
          constructor
          · rintro (hx | ⟨rfl, h2, h3⟩)
            · exact .inl hx
            · exact .inl hbh
          · rintro (hx | ⟨rfl, h2, h3⟩)
            · exact .inl hx
            · exact .inl hbh
        · rw [if_pos rfl, if_neg hbh]
          constructor
          · rintro (hx | ⟨rfl, h2, h3⟩)
            · rcases List.mem_append.1 hx with hx' | hx'
              · exact .inl hx'
              · exact .inr ⟨List.mem_singleton.1 hx',
                  List.mem_cons_self h rest,
                  by first | exact hab | exact fun hc => hab hc.symm⟩
            · exact .inr ⟨rfl, List.mem_cons_self h rest,
                by first | exact hab | exact fun hc => hab hc.symm⟩
          · rintro (hx | ⟨rfl, h2, h3⟩)
            · exact .inl (List.mem_append_left _ hx)
            · exact .inl (List.mem_append_right _ (by simp))
      · rw [if_neg hha]
        constructor
        · rintro (hx | ⟨h1, h2, h3⟩)
          · exact .inl hx
          · exact .inr ⟨h1, List.mem_cons_of_mem a h2, h3⟩
        · rintro (hx | ⟨h1, h2, h3⟩)
          · exact .inl hx
          · rcases List.mem_cons.1 h2 with heq | h2'
            · exact absurd heq hha
            · exact .inr ⟨h1, h2', h3⟩

theorem output_acked (s : totalOrdering) (dh : List Hash) :
    (s.output dh).acked = (s.acked.filter fun e => decide (e.1 ∉ dh)).map
      fun e => (e.1, e.2.filter fun x => decide (x ∉ dh)) :=
  rfl

/-- `ackedGet` after the delivery purge: delivered keys vanish, surviving
entries lose their delivered members. -/
theorem ackedGet_output (m : List (Hash × List Hash)) (dh : List Hash) (h : Hash) :
    ackedGet ((m.filter fun e => decide (e.1 ∉ dh)).map
      fun e => (e.1, e.2.filter fun x => decide (x ∉ dh))) h =
      if h ∈ dh then [] else (ackedGet m h).filter fun x => decide (x ∉ dh) := by
  induction m with
  | nil =>
    by_cases hh : h ∈ dh
    · rw [if_pos hh]
      rfl
    · rw [if_neg hh]
      rfl
  | cons e rest ih =>
    by_cases he : e.1 ∈ dh
    · rw [List.filter_cons_of_neg (by simpa using he), ih]
      by_cases hh : h ∈ dh
      · rw [if_pos hh, if_pos hh]
      · rw [if_neg hh, if_neg hh, ackedGet_cons,
          if_neg (show ¬ e.1 = h from fun hc => hh (hc ▸ he))]
    · rw [List.filter_cons_of_pos (by simpa using he), List.map_cons,
        ackedGet_cons]
      dsimp only
      by_cases hhe : e.1 = h
      · rw [if_pos hhe, if_neg (by rw [← hhe]; exact he), ackedGet_cons,
          if_pos hhe]
      · rw [if_neg hhe, ih]
        by_cases hh : h ∈ dh
        · rw [if_pos hh, if_pos hh]
        · rw [if_neg hh, if_neg hh, ackedGet_cons, if_neg hhe]

/-- Delivered blocks only reach delivered blocks, given edge-closedness. -/
theorem reaches_delivered {pre : List Block} {DH : List Hash}
    (hU : ∀ blk ∈ pre, blk.hash ∈ DH → ∀ a ∈ blk.acks, a ∈ DH) :
    ∀ {x h : Hash}, Reaches pre x h → x ∈ DH → h ∈ DH := by
  intro x h hr
  induction hr with
  | direct he =>
    intro hx
    obtain ⟨blk, hblk, rfl, hy⟩ := he
    exact hU blk hblk hx _ hy
  | step he _ ih =>
    intro hx
    obtain ⟨blk, hblk, rfl, hy⟩ := he
    exact ih (hU blk hblk hx _ hy)

/-- A freshly arrived hash is reached by nobody. -/
theorem not_reaches_fresh {pre : List Block} {b : Block}
    (hdag : DagOrdered (pre ++ [b])) (hfresh : b.hash ∉ pre.map Block.hash) :
    ∀ x, ¬ Reaches (pre ++ [b]) x b.hash := by
  obtain ⟨hdagpre, hacks⟩ := dagOrdered_snoc hdag
  have key : ∀ {x z : Hash}, Reaches (pre ++ [b]) x z → z ≠ b.hash := by
    intro x z hr
    induction hr with
    | direct he =>
      obtain ⟨blk, hblk, _, hy⟩ := he
      intro hz
      subst hz
      rcases List.mem_append.1 hblk with hin | hin
      · exact hfresh (dagOrdered_mem_acks pre hdagpre blk hin _ hy)
      · rw [List.mem_singleton.1 hin] at hy
        exact hfresh (hacks _ hy)
    | step _ _ ih => exact ih
  exact fun x hr => key hr rfl

/-- Paths that do not start at the fresh block stay inside the old DAG. -/
theorem reaches_restrict {pre : List Block} {b : Block}
    (hdag : DagOrdered (pre ++ [b])) (hfresh : b.hash ∉ pre.map Block.hash) :
    ∀ {x h : Hash}, Reaches (pre ++ [b]) x h → x ≠ b.hash → Reaches pre x h := by
  obtain ⟨hdagpre, hacks⟩ := dagOrdered_snoc hdag
  intro x h hr
  induction hr with
  | direct he =>
    intro hx
    obtain ⟨blk, hblk, rfl, hy⟩ := he
    rcases List.mem_append.1 hblk with hin | hin
    · exact .direct ⟨blk, hin, rfl, hy⟩
    · rw [List.mem_singleton.1 hin] at hx
      exact absurd rfl hx
  | step he _ ih =>
    intro hx
    obtain ⟨blk, hblk, rfl, hy⟩ := he
    rcases List.mem_append.1 hblk with hin | hin
    · have hy2 : _ ∈ pre.map Block.hash :=
        dagOrdered_mem_acks pre hdagpre blk hin _ hy
      refine .step ⟨blk, hin, rfl, hy⟩ (ih ?_)
      intro hc
      rw [hc] at hy2
      exact hfresh hy2
    · rw [List.mem_singleton.1 hin] at hx
      exact absurd rfl hx

/-- A path out of the fresh block starts with one of its acks. -/
theorem reaches_snoc_start {pre : List Block} {b : Block}
    (hfresh : b.hash ∉ pre.map Block.hash) :
    ∀ {h : Hash}, Reaches (pre ++ [b]) b.hash h →
      ∃ a ∈ b.acks, a = h ∨ Reaches (pre ++ [b]) a h := by
  intro h hr
  cases hr with
  | direct he =>
    obtain ⟨blk, hblk, hbh, hy⟩ := he
    have hblkb : blk = b := by
      rcases List.mem_append.1 hblk with hin | hin
      · exact absurd (hbh ▸ List.mem_map_of_mem Block.hash hin) hfresh
      · exact List.mem_singleton.1 hin
    rw [hblkb] at hy
    exact ⟨h, hy, .inl rfl⟩
  | step he hr2 =>
    obtain ⟨blk, hblk, hbh, hy⟩ := he
    have hblkb : blk = b := by
      rcases List.mem_append.1 hblk with hin | hin
      · exact absurd (hbh ▸ List.mem_map_of_mem Block.hash hin) hfresh
      · exact List.mem_singleton.1 hin
    rw [hblkb] at hy
    exact ⟨_, hy, .inr hr2⟩

/-- The global `acked`-map invariant over a DAG-ordered stream with distinct
hashes: keys are duplicate-free, delivered blocks come from the stream and are
never pending, delivery is edge-closed, and `acked` is exactly the transitive
ack-closure restricted to pending blocks, with no self-membership. -/
theorem ackedInv (k phi numChains : Nat) (seq : List Block)
    (hdag : DagOrdered seq) (hnd : (seq.map Block.hash).Nodup) :
    (((runBlocks (newTotalOrdering k phi numChains) seq).1.acked.map
      Prod.fst).Nodup) ∧
    (∀ blk ∈ deliveredOf (runBlocks (newTotalOrdering k phi numChains) seq).2,
      blk ∈ seq) ∧
    (∀ blk ∈ (runBlocks (newTotalOrdering k phi numChains) seq).1.pendings,
      blk.hash ∉ (deliveredOf
        (runBlocks (newTotalOrdering k phi numChains) seq).2).map Block.hash) ∧
    (∀ blk ∈ seq, blk.hash ∈ (deliveredOf
        (runBlocks (newTotalOrdering k phi numChains) seq).2).map Block.hash →
      ∀ a ∈ blk.acks, a ∈ (deliveredOf
        (runBlocks (newTotalOrdering k phi numChains) seq).2).map Block.hash) ∧
    (∀ h x, x ∈ ackedGet
        (runBlocks (newTotalOrdering k phi numChains) seq).1.acked h →
      (∃ blk ∈ (runBlocks (newTotalOrdering k phi numChains) seq).1.pendings,
        blk.hash = x) ∧ Reaches seq x h) ∧
    (∀ h, h ∉ ackedGet
      (runBlocks (newTotalOrdering k phi numChains) seq).1.acked h) ∧
    (∀ blk ∈ (runBlocks (newTotalOrdering k phi numChains) seq).1.pendings,
      ∀ h ∈ (runBlocks (newTotalOrdering k phi numChains)
        seq).1.pendings.map Block.hash,
      Reaches seq blk.hash h → blk.hash ∈ ackedGet
        (runBlocks (newTotalOrdering k phi numChains) seq).1.acked h) := by
  induction seq using List.reverseRecOn with
  | nil =>
    refine ⟨by simp [runBlocks, newTotalOrdering], ?_, ?_, ?_, ?_, ?_, ?_⟩
    · intro blk hblk
      exact absurd hblk (by simp [runBlocks, deliveredOf])
    · intro blk hblk
      exact absurd hblk (by simp [runBlocks, newTotalOrdering])
    · intro blk hblk
      exact absurd hblk (List.not_mem_nil blk)
    · intro h x hx
      exact absurd hx (by simp [runBlocks, newTotalOrdering, ackedGet])
    · intro h hx
      exact absurd hx (by simp [runBlocks, newTotalOrdering, ackedGet])
    · intro blk hblk
      exact absurd hblk (by simp [runBlocks, newTotalOrdering])
  | append_singleton pre b ih =>
    obtain ⟨hdagpre, hacks⟩ := dagOrdered_snoc hdag
    have hndpre : (pre.map Block.hash).Nodup := by
      rw [List.map_append] at hnd
      exact (List.nodup_append.1 hnd).1
    have hbfresh : b.hash ∉ pre.map Block.hash := by
      rw [List.map_append] at hnd
      rcases List.nodup_append.1 hnd with ⟨_, _, hdisj⟩
      intro hmem
      exact hdisj hmem (by simp)
    obtain ⟨iK, iX, iW, iU, iS, iV, iT⟩ := ih hdagpre hndpre
    obtain ⟨esub, eA, eD, eC, _⟩ := engineInv k phi numChains pre hdagpre hndpre
    obtain ⟨s1, hp, hack, hcands, hres⟩ :=
      processBlock_spec (runBlocks (newTotalOrdering k phi numChains) pre).1 b
    obtain ⟨asub, aA, aD, aC⟩ := stage_inv_arrive pre b
      (runBlocks (newTotalOrdering k phi numChains) pre).1
      ((deliveredOf (runBlocks (newTotalOrdering k phi numChains) pre).2).map
        Block.hash)
      s1.candidates esub eA eD eC hnd hacks hcands
    rw [← hp] at asub aA aD aC
    have hDHsub : ∀ a, a ∈ (deliveredOf
        (runBlocks (newTotalOrdering k phi numChains) pre).2).map Block.hash →
        a ∈ pre.map Block.hash := by
      intro a ha
      obtain ⟨blk', hblk', rfl⟩ := List.mem_map.1 ha
      exact List.mem_map_of_mem Block.hash (iX blk' hblk')
    -- Stage-1 facts, about the post-arrival state s1.
    have K1 : (s1.acked.map Prod.fst).Nodup := by
      rw [hack]
      exact foldl_insert_keys_nodup b.hash _ _ iK
    have hbmem : b ∈ pre ++ [b] := List.mem_append_right _ (by simp)
    have hreached_reach : ∀ a ∈ reachedFrom
        (runBlocks (newTotalOrdering k phi numChains) pre).1.acked b.acks,
        Reaches (pre ++ [b]) b.hash a := by
      intro a ha
      unfold reachedFrom at ha
      rcases List.mem_append.1 ha with hin | hin
      · exact .direct ⟨b, hbmem, rfl, hin⟩
      · obtain ⟨e, hef, rfl⟩ := List.mem_map.1 hin
        have hef2 := List.mem_filter.1 hef
        have hany : ∃ mn ∈ e.2, mn ∈ b.acks := by
          have := hef2.2
          simpa using this
        obtain ⟨mn, hm1, hm2⟩ := hany
        have hget : ackedGet
            (runBlocks (newTotalOrdering k phi numChains) pre).1.acked e.1 =
            e.2 := ackedGet_of_mem _ iK e hef2.1
        have hmS := iS e.1 mn (by rw [hget]; exact hm1)
        exact .step ⟨b, hbmem, rfl, hm2⟩
          (reaches_mono (fun q hq => List.mem_append_left _ hq) hmS.2)
    have S1 : ∀ h x, x ∈ ackedGet s1.acked h →
        (∃ blk ∈ s1.pendings, blk.hash = x) ∧ Reaches (pre ++ [b]) x h := by
      intro h x hx
      rw [hack] at hx
      rcases (ackedGet_foldl_insert b.hash _ _ h x).1 hx with hold | ⟨rfl, hre, _⟩
      · obtain ⟨⟨blk, hblk, rfl⟩, hR2⟩ := iS h x hold
        refine ⟨⟨blk, ?_, rfl⟩,
          reaches_mono (fun q hq => List.mem_append_left _ hq) hR2⟩
        rw [hp]
        exact List.mem_append_left _ hblk
      · exact ⟨⟨b, by rw [hp]; exact List.mem_append_right _ (by simp), rfl⟩,
          hreached_reach h hre⟩
    have V1 : ∀ h, h ∉ ackedGet s1.acked h := by
      intro h hx
      rw [hack] at hx
      rcases (ackedGet_foldl_insert b.hash _ _ h h).1 hx with hold | ⟨heq, _, hne⟩
      · exact iV h hold
      · exact hne heq
    have T1 : ∀ blk ∈ s1.pendings, ∀ h ∈ s1.pendings.map Block.hash,
        Reaches (pre ++ [b]) blk.hash h → blk.hash ∈ ackedGet s1.acked h := by
      intro blk hblk h hh hr
      rw [hack]
      refine (ackedGet_foldl_insert b.hash _ _ h blk.hash).2 ?_
      rw [hp] at hblk
      rw [hp, List.map_append] at hh
      rcases List.mem_append.1 hblk with hbin | hbin
      · have hbne : blk.hash ≠ b.hash := by
          intro hc
          exact hbfresh (hc ▸ List.mem_map_of_mem Block.hash (esub.subset hbin))
        rcases List.mem_append.1 hh with hhin | hhin
        · exact .inl (iT blk hbin h hhin (reaches_restrict hdag hbfresh hr hbne))
        · rw [List.mem_singleton.1 hhin] at hr
          exact absurd hr (not_reaches_fresh hdag hbfresh _)
      · rw [List.mem_singleton.1 hbin] at hr ⊢
        rcases List.mem_append.1 hh with hhin | hhin
        · have hhpre : h ∈ pre.map Block.hash :=
            (esub.map Block.hash).subset hhin
          have hne : h ≠ b.hash := fun hc => hbfresh (hc ▸ hhpre)
          obtain ⟨a0, ha0, hcase⟩ := reaches_snoc_start hbfresh hr
          have hhre : h ∈ reachedFrom
              (runBlocks (newTotalOrdering k phi numChains) pre).1.acked
              b.acks := by
            unfold reachedFrom
            rcases hcase with rfl | hra
            · exact List.mem_append_left _ ha0
            · have ha0pre : a0 ∈ pre.map Block.hash := hacks a0 ha0
              have ha0ne : a0 ≠ b.hash := fun hc => hbfresh (hc ▸ ha0pre)
              have hra2 : Reaches pre a0 h :=
                reaches_restrict hdag hbfresh hra ha0ne
              obtain ⟨blka, hblka, hhba⟩ := List.mem_map.1 ha0pre
              rcases eA blka hblka with hpend | hdel
              · have hmem : a0 ∈ ackedGet
                    (runBlocks (newTotalOrdering k phi numChains) pre).1.acked
                    h := by
                  have hT := iT blka hpend h hhin (by rw [hhba]; exact hra2)
                  rw [hhba] at hT
                  exact hT
                obtain ⟨e, he, he1, he2⟩ := ackedGet_mem_entry _ h a0 hmem
                refine List.mem_append_right _ ?_
                refine List.mem_map.2 ⟨e, ?_, he1⟩
                refine List.mem_filter.2 ⟨he, ?_⟩
                simp only [List.any_eq_true]
                exact ⟨a0, he2, by simpa using ha0⟩
              · have ha0DH : a0 ∈ (deliveredOf
                    (runBlocks (newTotalOrdering k phi numChains)
                      pre).2).map Block.hash := hhba ▸ hdel
                have hhDH : h ∈ (deliveredOf
                    (runBlocks (newTotalOrdering k phi numChains)
                      pre).2).map Block.hash :=
                  reaches_delivered iU hra2 ha0DH
                obtain ⟨blkh, hblkh, hbh2⟩ := List.mem_map.1 hhin
                exact absurd (show blkh.hash ∈ (deliveredOf
                    (runBlocks (newTotalOrdering k phi numChains)
                      pre).2).map Block.hash by rw [hbh2]; exact hhDH)
                  (iW blkh hblkh)
          exact .inr ⟨rfl, hhre, hne⟩
        · rw [List.mem_singleton.1 hhin] at hr
          exact absurd hr (not_reaches_fresh hdag hbfresh _)
    have W1 : ∀ blk ∈ s1.pendings, blk.hash ∉ (deliveredOf
        (runBlocks (newTotalOrdering k phi numChains) pre).2).map Block.hash := by
      intro blk hblk
      rw [hp] at hblk
      rcases List.mem_append.1 hblk with hin | hin
      · exact iW blk hin
      · rw [List.mem_singleton.1 hin]
        intro hmem
        exact hbfresh (hDHsub b.hash hmem)
    have U1 : ∀ blk ∈ pre ++ [b], blk.hash ∈ (deliveredOf
        (runBlocks (newTotalOrdering k phi numChains) pre).2).map Block.hash →
        ∀ a ∈ blk.acks, a ∈ (deliveredOf
          (runBlocks (newTotalOrdering k phi numChains) pre).2).map
          Block.hash := by
      intro blk hblk hmem
      rcases List.mem_append.1 hblk with hin | hin
      · exact iU blk hin hmem
      · rw [List.mem_singleton.1 hin] at hmem
        exact absurd (hDHsub b.hash hmem) hbfresh
    have X1 : ∀ blk ∈ deliveredOf
        (runBlocks (newTotalOrdering k phi numChains) pre).2,
        blk ∈ pre ++ [b] := fun blk hblk => List.mem_append_left _ (iX blk hblk)
    rw [runBlocks_snoc]
    rcases hres with heq | heq
    · rw [heq]
      dsimp only
      have hDel : deliveredOf
          ((runBlocks (newTotalOrdering k phi numChains) pre).2 ++
            [(([] : List Block), TotalOrderingMode.normal)]) =
          deliveredOf (runBlocks (newTotalOrdering k phi numChains) pre).2 := by
        rw [deliveredOf_append]
        simp
      rw [hDel]
      exact ⟨K1, X1, W1, U1, S1, V1, T1⟩
    · rw [heq]
      dsimp only
      have hbridge : ∀ a : Hash,
          a ∈ (deliveredOf
            ((runBlocks (newTotalOrdering k phi numChains) pre).2 ++
              [(sortByHash (s1.pendings.filter fun blk =>
                  decide (blk.hash ∈ s1.generateDeliverSet.1)),
                s1.generateDeliverSet.2)])).map Block.hash ↔
          a ∈ (deliveredOf
              (runBlocks (newTotalOrdering k phi numChains) pre).2).map
              Block.hash ++
            (s1.pendings.filter fun blk =>
              decide (blk.hash ∈ s1.generateDeliverSet.1)).map Block.hash := by
        intro a
        rw [deliveredOf_append, List.map_append, List.mem_append, List.mem_append]
        exact or_congr Iff.rfl (sortByHash_hashes_perm _).mem_iff
      refine ⟨?_, ?_, ?_, ?_, ?_, ?_, ?_⟩
      · -- keys stay duplicate-free through the purge
        rw [output_acked]
        have hkeys : ((s1.acked.filter fun e =>
            decide (e.1 ∉ s1.generateDeliverSet.1)).map
              (fun e => (e.1, e.2.filter fun x =>
                decide (x ∉ s1.generateDeliverSet.1)))).map Prod.fst =
            (s1.acked.filter fun e =>
              decide (e.1 ∉ s1.generateDeliverSet.1)).map Prod.fst := by
          rw [List.map_map]
          exact List.map_congr_left fun x _ => rfl
        rw [hkeys]
        exact K1.sublist ((List.filter_sublist _).map Prod.fst)
      · -- delivered blocks come from the stream
        intro blk hblk
        rw [deliveredOf_append] at hblk
        rcases List.mem_append.1 hblk with hin | hin
        · exact X1 blk hin
        · have hin2 : blk ∈ s1.pendings.filter fun blk =>
              decide (blk.hash ∈ s1.generateDeliverSet.1) :=
            (List.perm_insertionSort _ _).subset hin
          exact asub.subset (List.mem_of_mem_filter hin2)
      · -- pending blocks are never delivered
        intro blk hblk hmem
        rw [output_pendings] at hblk
        have hbp := List.mem_of_mem_filter hblk
        have hbnP : blk.hash ∉ s1.generateDeliverSet.1 := by
          have := List.of_mem_filter hblk
          simpa using this
        rcases List.mem_append.1 ((hbridge blk.hash).1 hmem) with hDH | hDnew
        · exact W1 blk hbp hDH
        · obtain ⟨d, hd, hdh⟩ := List.mem_map.1 hDnew
          have hdP : d.hash ∈ s1.generateDeliverSet.1 := by
            have := List.of_mem_filter hd
            simpa using this
          exact hbnP (hdh ▸ hdP)
      · -- delivery is edge-closed
        intro blk hblk hmem a ha
        rcases List.mem_append.1 ((hbridge blk.hash).1 hmem) with hDH | hDnew
        · exact (hbridge a).2 (List.mem_append_left _ (U1 blk hblk hDH a ha))
        · obtain ⟨d, hd, hdh⟩ := List.mem_map.1 hDnew
          have hd1 := List.mem_of_mem_filter hd
          have hdP : d.hash ∈ s1.generateDeliverSet.1 := by
            have := List.of_mem_filter hd
            simpa using this
          have hbd : blk = d :=
            List.inj_on_of_nodup_map hnd hblk (asub.subset hd1) hdh.symm
          obtain ⟨j, hj⟩ := generateDeliverSet_mem s1 d.hash hdP
          refine (hbridge a).2 (List.mem_append_left _ ?_)
          exact aC j d.hash hj d hd1 rfl a (by rw [← hbd]; exact ha)
      · -- soundness of acked after the purge
        intro h x hx
        rw [output_acked, ackedGet_output] at hx
        by_cases hhP : h ∈ s1.generateDeliverSet.1
        · rw [if_pos hhP] at hx
          exact absurd hx (List.not_mem_nil x)
        · rw [if_neg hhP] at hx
          have hxin := List.mem_of_mem_filter hx
          have hxnP : x ∉ s1.generateDeliverSet.1 := by
            have := List.of_mem_filter hx
            simpa using this
          obtain ⟨⟨blk, hblk1, rfl⟩, hR2⟩ := S1 h x hxin
          rw [output_pendings]
          exact ⟨⟨blk, List.mem_filter.2 ⟨hblk1, by simpa using hxnP⟩, rfl⟩, hR2⟩
      · -- no self-membership after the purge
        intro h hx
        rw [output_acked, ackedGet_output] at hx
        by_cases hhP : h ∈ s1.generateDeliverSet.1
        · rw [if_pos hhP] at hx
          exact absurd hx (List.not_mem_nil h)
        · rw [if_neg hhP] at hx
          exact V1 h (List.mem_of_mem_filter hx)
      · -- completeness of acked after the purge
        intro blk hblk h hh hr
        rw [output_pendings] at hblk hh
        have hbp := List.mem_of_mem_filter hblk
        have hbnP : blk.hash ∉ s1.generateDeliverSet.1 := by
          have := List.of_mem_filter hblk
          simpa using this
        obtain ⟨blkh, hblkh, rfl⟩ := List.mem_map.1 hh
        have hbhp := List.mem_of_mem_filter hblkh
        have hbhnP : blkh.hash ∉ s1.generateDeliverSet.1 := by
          have := List.of_mem_filter hblkh
          simpa using this
        have hT := T1 blk hbp blkh.hash
          (List.mem_map_of_mem Block.hash hbhp) hr
        rw [output_acked, ackedGet_output, if_neg hbhnP]
        exact List.mem_filter.2 ⟨hT, by simpa using hbnP⟩

/-- C6: after processing any DAG-ordered, hash-distinct prefix, the `acked`
map is the transitive ack-closure restricted to pending blocks — every member
of `acked[h]` is the hash of a pending block whose transitive acks reach `h`,
every pending block transitively acking a pending `h` appears in `acked[h]`,
`h` is never a member of `acked[h]` — and on the linear chain `A ← B ← C`
(hashes 300, 301, 302) the engine records `acked[A] = {B, C}`,
`acked[B] = {C}`, `acked[C] = ∅` and delivers nothing. -/
theorem C6_theorem (k phi numChains : Nat) (seq : List Block)
    (hdag : DagOrdered seq) (hnd : (seq.map Block.hash).Nodup) :
    (∀ h x, x ∈ ackedGet
        (runBlocks (newTotalOrdering k phi numChains) seq).1.acked h →
      (∃ blk ∈ (runBlocks (newTotalOrdering k phi numChains) seq).1.pendings,
        blk.hash = x) ∧ Reaches seq x h) ∧
    (∀ blk ∈ (runBlocks (newTotalOrdering k phi numChains) seq).1.pendings,
      ∀ h ∈ (runBlocks (newTotalOrdering k phi numChains)
        seq).1.pendings.map Block.hash,
      Reaches seq blk.hash h → blk.hash ∈ ackedGet
        (runBlocks (newTotalOrdering k phi numChains) seq).1.acked h) ∧
    (∀ h, h ∉ ackedGet
      (runBlocks (newTotalOrdering k phi numChains) seq).1.acked h) ∧
    (ackedGet (runBlocks (newTotalOrdering 0 3 5) chainSeq).1.acked 300 =
        [301, 302] ∧
      ackedGet (runBlocks (newTotalOrdering 0 3 5) chainSeq).1.acked 301 =
        [302] ∧
      ackedGet (runBlocks (newTotalOrdering 0 3 5) chainSeq).1.acked 302 = [] ∧
      (runBlocks (newTotalOrdering 0 3 5) chainSeq).2 =
        [([], .normal), ([], .normal), ([], .normal)]) := by
  obtain ⟨_, _, _, _, hS, hV, hT⟩ := ackedInv k phi numChains seq hdag hnd
  exact ⟨hS, hT, hV, by decide⟩

/-- Witness: `C6_theorem` at the `TestBlockRelation` chain itself. -/
theorem C6_witness :
    DagOrdered chainSeq ∧ (chainSeq.map Block.hash).Nodup ∧
    ((∀ h x, x ∈ ackedGet
        (runBlocks (newTotalOrdering 0 3 5) chainSeq).1.acked h →
      (∃ blk ∈ (runBlocks (newTotalOrdering 0 3 5) chainSeq).1.pendings,
        blk.hash = x) ∧ Reaches chainSeq x h) ∧
    (∀ blk ∈ (runBlocks (newTotalOrdering 0 3 5) chainSeq).1.pendings,
      ∀ h ∈ (runBlocks (newTotalOrdering 0 3 5)
        chainSeq).1.pendings.map Block.hash,
      Reaches chainSeq blk.hash h → blk.hash ∈ ackedGet
        (runBlocks (newTotalOrdering 0 3 5) chainSeq).1.acked h) ∧
    (∀ h, h ∉ ackedGet
      (runBlocks (newTotalOrdering 0 3 5) chainSeq).1.acked h) ∧
    (ackedGet (runBlocks (newTotalOrdering 0 3 5) chainSeq).1.acked 300 =
        [301, 302] ∧
      ackedGet (runBlocks (newTotalOrdering 0 3 5) chainSeq).1.acked 301 =
        [302] ∧
      ackedGet (runBlocks (newTotalOrdering 0 3 5) chainSeq).1.acked 302 = [] ∧
      (runBlocks (newTotalOrdering 0 3 5) chainSeq).2 =
        [([], .normal), ([], .normal), ([], .normal)])) :=
  ⟨by decide, by decide, C6_theorem 0 3 5 chainSeq (by decide) (by decide)⟩

end DexonCore
